import Mathlib

/-!
Verification of the asset-resolution engine of `minecraft-render`
(`src/minecraft.ts` and the extended variant of the same class).

The development shallowly embeds the `Minecraft` class: JavaScript/JSON
values become the inductive type `J`, the jar collaborators become
functions `String → Option _`, promise rejections become an explicit
error type `JsErr`, and the mutable `_cache` field is threaded as
explicit state.  Recursive model resolution (`getModel`) takes an
explicit fuel argument because the source does not guard against cyclic
parent chains.
-/

set_option autoImplicit false

namespace MR

/-- JSON/JS values as produced by `JSON.parse`: strings, numbers,
booleans, `null`, arrays and objects (objects keep their field order,
as JavaScript objects do).  Numbers are modelled as integers; no claim
under consideration depends on non-integral numerics. -/
inductive J where
  | str (s : String)
  | num (n : Int)
  | bool (b : Bool)
  | null
  | arr (elems : List J)
  | obj (fields : List (String × J))

/-- JavaScript truthiness of a `J` value: `null`, `false`, `0` and the
empty string are falsy; arrays and objects are always truthy. -/
def truthy : J → Bool
  | J.str s => s ≠ ""
  | J.num n => n ≠ 0
  | J.bool b => b
  | J.null => false
  | J.arr _ => true
  | J.obj _ => true

/-- Truthiness of a possibly-absent value (`undefined` is falsy). -/
def truthyO : Option J → Bool
  | some j => truthy j
  | none => false

/-- First-match association lookup, the JS property read `l[k]`. -/
def jLookup {α : Type} : List (String × α) → String → Option α
  | [], _ => none
  | p :: rest, k => if p.1 = k then some p.2 else jLookup rest k

/-- JS property write `l[k] = v`: an existing key keeps its position,
a new key is appended at the end (JS object insertion order). -/
def setKey {α : Type} : List (String × α) → String → α → List (String × α)
  | [], k, v => [(k, v)]
  | p :: rest, k, v => if p.1 = k then (k, v) :: rest else p :: setKey rest k v

/-- The fields of a `J` value as seen by `assign-deep` when it is used
as a source argument: `assign-deep` only iterates the keys of plain
objects (its `isObject` rejects arrays and primitives, so those
contribute nothing). -/
def objFields : J → List (String × J)
  | J.obj fs => fs
  | _ => []

/-- Is this value a plain object in the sense of `assign-deep`'s
`isObject` (arrays and primitives are not)? -/
def isPlainObj : J → Bool
  | J.obj _ => true
  | _ => false

/-- `assign-deep` skips the keys `__proto__`, `constructor` and
`prototype` (its `isValidKey`). -/
def isValidKey (k : String) : Bool :=
  k ≠ "__proto__" && k ≠ "constructor" && k ≠ "prototype"

/-- The current value at key `k` of the target, if it is a plain
object (`isObject(target[key])` of `assign-deep`). -/
def lookupObj (t : List (String × J)) (k : String) : Option (List (String × J)) :=
  match jLookup t k with
  | some (J.obj tv) => some tv
  | _ => none

mutual

/-- Computable structural size of a document value (used only to supply
sufficient fuel to the merge worker below). -/
def sizeJ : J → Nat
  | .str _ => 1
  | .num _ => 1
  | .bool _ => 1
  | .null => 1
  | .arr l => 1 + sizeJA l
  | .obj fs => 1 + sizeJO fs

/-- Size of a list of document values. -/
def sizeJA : List J → Nat
  | [] => 1
  | x :: r => 1 + sizeJ x + sizeJA r

/-- Size of a field list. -/
def sizeJO : List (String × J) → Nat
  | [] => 1
  | (_, x) :: r => 1 + sizeJ x + sizeJO r

end


/-- Fuel-indexed worker for the `assign-deep` merge (the fuel makes the
nested recursion structural, hence kernel-computable; `mergeObj` below
always supplies sufficient fuel). -/
def mergeObjF : Nat → List (String × J) → List (String × J) → List (String × J)
  | _, t, [] => t
  | 0, t, _ :: _ => t
  | fuel + 1, t, (k, v) :: rest =>
    if isValidKey k then
      match lookupObj t k, v with
      | some tv, J.obj sv => mergeObjF fuel (setKey t k (J.obj (mergeObjF fuel tv sv))) rest
      | _, _ => mergeObjF fuel (setKey t k v) rest
    else mergeObjF fuel t rest
termination_by structural fuel _ _ => fuel

theorem mergeObjF_nil (fuel : Nat) (t : List (String × J)) : mergeObjF fuel t [] = t := by
  cases fuel <;> rfl

theorem sizeJO_cons (k : String) (v : J) (rest : List (String × J)) :
    sizeJO ((k, v) :: rest) = 1 + sizeJ v + sizeJO rest := rfl

theorem sizeJ_obj (fs : List (String × J)) : sizeJ (J.obj fs) = 1 + sizeJO fs := rfl

theorem sizeJ_pos (v : J) : 0 < sizeJ v := by
  cases v <;> simp [sizeJ]

theorem sizeJO_pos (s : List (String × J)) : 0 < sizeJO s := by
  cases s with
  | nil => simp [sizeJO]
  | cons p r =>
    obtain ⟨k, v⟩ := p
    rw [sizeJO_cons]
    omega

/-- Any two sufficient fuels compute the same merge. -/
theorem mergeObjF_congr : ∀ (n fuel1 fuel2 : Nat) (t s : List (String × J)),
    sizeJO s ≤ n → sizeJO s ≤ fuel1 → sizeJO s ≤ fuel2 →
    mergeObjF fuel1 t s = mergeObjF fuel2 t s := by
  intro n
  induction n with
  | zero =>
    intro fuel1 fuel2 t s hn _ _
    exact absurd hn (by have := sizeJO_pos s; omega)
  | succ n ih =>
    intro fuel1 fuel2 t s hn h1 h2
    cases s with
    | nil => rw [mergeObjF_nil, mergeObjF_nil]
    | cons p rest =>
      obtain ⟨k, v⟩ := p
      rw [sizeJO_cons] at hn h1 h2
      have hvpos : 0 < sizeJ v := sizeJ_pos v
      have hrpos : 0 < sizeJO rest := sizeJO_pos rest
      obtain ⟨fuel1', rfl⟩ : ∃ x, fuel1 = x + 1 := ⟨fuel1 - 1, by omega⟩
      obtain ⟨fuel2', rfl⟩ : ∃ x, fuel2 = x + 1 := ⟨fuel2 - 1, by omega⟩
      have hrest_n : sizeJO rest ≤ n := by omega
      have hrest_1 : sizeJO rest ≤ fuel1' := by omega
      have hrest_2 : sizeJO rest ≤ fuel2' := by omega
      simp only [mergeObjF]
      by_cases hval : isValidKey k
      · simp only [hval, if_true]
        cases hlo : lookupObj t k with
        | none =>
          cases v <;> exact ih _ _ _ _ hrest_n hrest_1 hrest_2
        | some tv =>
          cases v with
          | obj sv =>
            rw [sizeJ_obj] at hn h1 h2
            have hsv_n : sizeJO sv ≤ n := by omega
            have hsv_1 : sizeJO sv ≤ fuel1' := by omega
            have hsv_2 : sizeJO sv ≤ fuel2' := by omega
            show mergeObjF fuel1' (setKey t k (J.obj (mergeObjF fuel1' tv sv))) rest =
              mergeObjF fuel2' (setKey t k (J.obj (mergeObjF fuel2' tv sv))) rest
            rw [ih _ _ _ _ hsv_n hsv_1 hsv_2]
            exact ih _ _ _ _ hrest_n hrest_1 hrest_2
          | str s' => exact ih _ _ _ _ hrest_n hrest_1 hrest_2
          | num n' => exact ih _ _ _ _ hrest_n hrest_1 hrest_2
          | bool b' => exact ih _ _ _ _ hrest_n hrest_1 hrest_2
          | null => exact ih _ _ _ _ hrest_n hrest_1 hrest_2
          | arr l' => exact ih _ _ _ _ hrest_n hrest_1 hrest_2
      · simp only [hval, if_false]
        exact ih _ _ _ _ hrest_n hrest_1 hrest_2

/-- The core of `assign-deep`: assign every (valid) key of the source
field list `s` into the target field list `t`, in source order.  When
both the current target value and the source value are plain objects
the two are merged recursively; any other combination replaces the
target value wholesale. -/
def mergeObj (t s : List (String × J)) : List (String × J) :=
  mergeObjF (sizeJO s) t s

/-- A sufficient fuel computes the merge. -/
theorem mergeObjF_eq_mergeObj (fuel : Nat) (t s : List (String × J))
    (h : sizeJO s ≤ fuel) : mergeObjF fuel t s = mergeObj t s :=
  mergeObjF_congr fuel fuel (sizeJO s) t s h h le_rfl

/-- `deepAssign({}, a, b)` from the source: assign the fields of `a`
into a fresh object, then the fields of `b` over them. -/
def deepAssign3 (a b : J) : J :=
  J.obj (mergeObj (mergeObj [] (objFields a)) (objFields b))

/-- A byte buffer as far as the resolver can observe it: either bytes
that parse as the given JSON document, or bytes `JSON.parse` rejects. -/
inductive Buf where
  | json (j : J)
  | malformed

/-- `parseJson` applied to a buffer read from a jar: the buffer is
decoded to text and fed to `JSON.parse`; `none` models the exception
`JSON.parse` throws on malformed input.  (The `string`/plain-object
branches of the source function are not reachable from `getParsedJson`,
which always passes a `Buffer`.) -/
def parseJson : Buf → Option J
  | Buf.json j => some j
  | Buf.malformed => none

/-- `clone` is `JSON.parse(JSON.stringify(input))`.  At the level of
values this round-trip is the identity on `J` (which is exactly the
JSON-representable values); the fact that it allocates a fresh,
unaliased copy is modelled separately by the store development below. -/
def clone (j : J) : J := j

/-- A jar collaborator: `read` resolves with a buffer or rejects
(`none` covers both a rejection and a null result, which `getFile`
treats identically), `entries` lists the entry names under a path
prefix or rejects. -/
structure Jar where
  read : String → Option Buf
  entries : String → Option (List String)

/-- The `Minecraft` instance state that the resolution engine reads:
the primary jar, the registered auxiliary jars in registration order
(keyed by modid), and the configured default namespace. -/
structure Minecraft where
  jar : Jar
  modidJars : List (String × Jar)
  defaultNamespace : String := "minecraft"

/-- The parsed-JSON cache `_cache`, threaded explicitly. -/
abbrev Cache := List (String × J)

/-- Promise rejections the embedded operations can produce, plus fuel
exhaustion for the unguarded `getModel` recursion. -/
inductive JsErr where
  | typeError
  | parseError
  | outOfFuel
deriving DecidableEq

/-- An identifier: `ns` is the `namespace` component, `localId` the
`id` component of the source's `{ namespace, id }` record. -/
structure MCId where
  ns : String
  localId : String

/-- `name.includes(':')`: some character of the string is a colon. -/
def hasColon (s : String) : Bool :=
  s.data.any (fun c => c = ':')

/-- `id.indexOf('/') == -1` negated: some character is a slash. -/
def hasSlash (s : String) : Bool :=
  s.data.any (fun c => c = '/')

/-- `name.endsWith(suffix)` on the character lists. -/
def strEndsWith (s suffix : String) : Bool :=
  List.isPrefixOf suffix.data.reverse s.data.reverse

/-- `slice(0, -n)`: drop the last `n` characters. -/
def strDropRight (s : String) (n : Nat) : String :=
  String.mk (s.data.take (s.data.length - n))

/-- `split(':')` on the character list: splits at every colon, keeping
empty segments (JS `String.prototype.split` semantics). -/
def splitColonCh : List Char → List (List Char)
  | [] => [[]]
  | x :: rest =>
    if x = ':' then [] :: splitColonCh rest
    else
      match splitColonCh rest with
      | h :: t => (x :: h) :: t
      | [] => [[x]]

/-- `name.split(':')` as a list of strings. -/
def jsSplitColon (s : String) : List String :=
  (splitColonCh s.data).map (fun l => String.mk l)

/-- `Minecraft.id`: split `"ns:id"` on `:` (JS destructuring of
`split(':')` keeps the first two components); a name without `:` gets
the literal namespace `'minecraft'` — the source does not consult
`this.defaultNamespace` here. -/
def Minecraft.id (_m : Minecraft) (name : String) : MCId :=
  if hasColon name then
    let parts := jsSplitColon name
    { ns := parts.headD "", localId := (parts.drop 1).headD "" }
  else
    { ns := "minecraft", localId := name }

/-- `registerModId`: store the jar under the modid, silently replacing
a prior registration under the same key (in place). -/
def registerModId (m : Minecraft) (modid : String) (jar : Jar) : Minecraft :=
  { m with modidJars := setKey m.modidJars modid jar }

/-- The auxiliary-jar loop of `getFile`: try each registered jar in
registration order, swallowing rejections, returning the first
successful non-null buffer. -/
def readAux : List (String × Jar) → String → Option Buf
  | [], _ => none
  | (_, jar) :: rest, p =>
    match jar.read p with
    | some b => some b
    | none => readAux rest p

/-- `getFile`: try the primary jar first (swallowing any rejection);
a truthy result wins, otherwise fall back to the registered jars in
order; `none` when every source fails. -/
def getFile (m : Minecraft) (p : String) : Option Buf :=
  match m.jar.read p with
  | some b => some b
  | none => readAux m.modidJars p

/-- The auxiliary-jar loop of `getFileEntries`: a listing is accepted
only if it is non-empty; rejections and empty listings fall through. -/
def entriesAux : List (String × Jar) → String → List String
  | [], _ => []
  | (_, jar) :: rest, p =>
    match jar.entries p with
    | some l => if l ≠ [] then l else entriesAux rest p
    | none => entriesAux rest p

/-- `getFileEntries`: primary jar first (a rejection is replaced by the
empty list, which then fails the non-emptiness test), then the
registered jars in order; `[]` when every source fails. -/
def getFileEntries (m : Minecraft) (p : String) : List String :=
  match m.jar.entries p with
  | some l => if l ≠ [] then l else entriesAux m.modidJars p
  | none => entriesAux m.modidJars p

/-- `getParsedJson`: on a falsy cache slot, read the file and (when a
buffer was found) parse it and store the parsed value in the cache —
note that a falsy *parsed* value is stored as well.  Then, if the cache
slot is truthy, return a clone of it; otherwise the function returns
`undefined`.  A `JSON.parse` exception propagates (rejects the
promise). -/
def getParsedJson (m : Minecraft) (cache : Cache) (path : String) :
    Except JsErr (Option J × Cache) :=
  let step : Except JsErr Cache :=
    if ¬ truthyO (jLookup cache path) then
      match getFile m path with
      | some data =>
        match parseJson data with
        | some j => .ok (setKey cache path j)
        | none => .error .parseError
      | none => .ok cache
    else .ok cache
  match step with
  | .error e => .error e
  | .ok cache' =>
    match jLookup cache' path with
    | some j => if truthy j then .ok (some (clone j), cache') else .ok (none, cache')
    | none => .ok (none, cache')

/-- Read a field of a `J` value the way JS property access does on the
values `getParsedJson` can return: objects yield their field, every
other (boxed) value yields `undefined`.  (Index properties of strings
and arrays are not modelled; no model document field access uses
them.) -/
def getField (j : J) (k : String) : Option J :=
  match j with
  | J.obj fs => jLookup fs k
  | _ => none

/-- The "own" descriptor of a model document: the rest pattern
`{ parent, ...model }` — every field except `parent`.  Non-object
documents contribute no fields. -/
def ownFields (doc : J) : List (String × J) :=
  (objFields doc).filter (fun p => p.1 ≠ "parent")

/-- The fallback test `!model.display || !model.display.gui` of
`getModel` (evaluated on the own descriptor): true when there is no
truthy GUI display data. -/
def fallbackNeeded (own : List (String × J)) : Bool :=
  ¬ truthyO (jLookup own "display") ||
    ¬ truthyO (match jLookup own "display" with
               | some d => getField d "gui"
               | none => none)

/-- The parent reference actually used by one `getModel` step: the
document's own `parent` if truthy, otherwise the synthesized
`'minecraft:block/block'` when the own descriptor has no GUI display
data, otherwise the (falsy) original. -/
def effectiveParent (parent0 : Option J) (own : List (String × J)) : Option J :=
  if truthyO parent0 then parent0
  else if fallbackNeeded own then some (J.str "minecraft:block/block")
  else parent0

/-- The merge-and-annotate tail of a `getModel` step once the parent
has been recursively resolved: `deepAssign({}, parentModel, model)`,
then ensure `parents` is an array (`[]` when falsy), push the parent id
onto it, and fail with a `TypeError` if it is a truthy non-array. -/
def finishModel (pm : J) (own : List (String × J)) (p : String) : Except JsErr (List (String × J)) :=
  let merged := mergeObj (mergeObj [] (objFields pm)) own
  let pv : Option J := jLookup merged "parents"
  let pv' : Option J := if truthyO pv then pv else some (J.arr [])
  match pv' with
  | some (J.arr l) => .ok (setKey merged "parents" (J.arr (l ++ [J.str p])))
  | _ => .error .typeError

/-- The model-file path `assets/<ns>/models/<id>.json`, with the
implicit `block/` prefix when the id has no path separator. -/
def modelPath (m : Minecraft) (name : String) : String :=
  let i := m.id name
  let id2 := if hasSlash i.localId then i.localId else "block/" ++ i.localId
  "assets/" ++ i.ns ++ "/models/" ++ id2 ++ ".json"

/-- `getModelFile`: build the model path and read it through
`getParsedJson`.  The `try`/`catch` of the source is dead code: the
`async` call is returned without `await`, so the promise is handed back
before it can reject and the catch clause (which would throw
`Unable to find model file: <path>`) can never fire; in particular a
model file that is missing from every source yields a *fulfilled*
`undefined`, not a `ModelNotFoundError`. -/
def getModelFile (m : Minecraft) (cache : Cache) (name : String) :
    Except JsErr (Option J × Cache) :=
  getParsedJson m cache (modelPath m name)

/-- `getModel` with explicit fuel (the source recursion is unguarded).
Destructuring the model file fails with a `TypeError` when the file was
not found (`undefined`); a truthy non-string parent also propagates as
a `TypeError` (`name.includes` is not a function on it). -/
def getModel (m : Minecraft) : Nat → String → Cache → Except JsErr (J × Cache)
  | 0, _, _ => .error .outOfFuel
  | fuel + 1, blockName, cache =>
    match getModelFile m cache blockName with
    | .error e => .error e
    | .ok (none, _) => .error .typeError
    | .ok (some doc, c1) =>
      let own := ownFields doc
      let pv := effectiveParent (getField doc "parent") own
      if truthyO pv then
        match pv with
        | some (J.str p) =>
          match getModel m fuel p c1 with
          | .error e => .error e
          | .ok (pm, c2) =>
            match finishModel pm own p with
            | .error e => .error e
            | .ok merged => .ok (J.obj (mergeObj merged [("blockName", J.str blockName)]), c2)
        | _ => .error .typeError
      else
        .ok (J.obj (mergeObj own [("blockName", J.str blockName)]), c1)

/-- The texture path `assets/<ns>/textures/<id>.png`. -/
def texturePath (m : Minecraft) (name : String) : String :=
  let i := m.id name
  "assets/" ++ i.ns ++ "/textures/" ++ i.localId ++ ".png"

/-- `getTextureFile`: read the texture path through `getFile`.  The
`catch` clause (which would throw `Unable to find texture file:
<path>`) is dead code: `getFile` swallows every per-jar rejection and
resolves with `null` when all sources fail, so it never rejects and a
missing texture yields a fulfilled `null` — no `TextureNotFoundError`
is ever raised. -/
def getTextureFile (m : Minecraft) (name : String) : Except JsErr (Option Buf) :=
  .ok (getFile m (texturePath m name))

/-- `libpath.basename`: the part of the path after the last `/` (jar
entry names of files never end in a slash, so the trailing-slash
special case of `path.basename` is irrelevant here). -/
def basename (p : String) : String :=
  String.mk ((p.data.reverse.takeWhile (fun c => c ≠ '/')).reverse)

/-- Set a field on a JS value: objects get the property written;
writing a property on a boxed primitive is a silent no-op in sloppy
mode.  (`getBlockStates` has already rejected `undefined` documents
before this is reached, and a falsy `null` never escapes
`getParsedJson`.) -/
def setField (j : J) (k : String) (v : J) : J :=
  match j with
  | J.obj fs => J.obj (setKey fs k v)
  | other => other

/-- The per-entry loop of `getBlockStates`: skip names not ending in
`.json`, parse each remaining entry and stamp it with
`namespace:filename`.  Stamping `undefined` (a file that is missing or
parses to a falsy document) is a `TypeError` that rejects the whole
listing. -/
def blockStatesAux (m : Minecraft) (ns : String) :
    List String → Cache → Except JsErr (List J × Cache)
  | [], c => .ok ([], c)
  | f :: rest, c =>
    if strEndsWith f ".json" then
      let filename := strDropRight (basename f) 5
      match getParsedJson m c f with
      | .error e => .error e
      | .ok (none, _) => .error .typeError
      | .ok (some st, c') =>
        let st' := setField st "identifier" (J.str (ns ++ ":" ++ filename))
        match blockStatesAux m ns rest c' with
        | .error e => .error e
        | .ok (states, c'') => .ok (st' :: states, c'')
    else blockStatesAux m ns rest c

/-- `getBlockStates`: list the blockstate directory of the namespace
and run the per-entry loop over it. -/
def getBlockStates (m : Minecraft) (cache : Cache) (ns : String) :
    Except JsErr (List J × Cache) :=
  blockStatesAux m ns (getFileEntries m ("assets/" ++ ns ++ "/blockstates")) cache

/-- `getModelFromBlockState`: select the default variant (the
empty-string selector if truthy, else the first entry of the variants
object), take the first element of a sequence-valued variant, resolve
the named model file, and — unless the file was missing, in which case
the call warns and fulfills with `undefined` — run the same
parent-merging step as `getModel`.  Property access on `undefined` or
`null` rejects with a `TypeError`. -/
def getModelFromBlockState (m : Minecraft) (fuel : Nat) (cache : Cache) (blockState : J) :
    Except JsErr (Option J × Cache) :=
  match getField blockState "variants" with
  | none => .error .typeError        -- variants is undefined: the [''] access throws
  | some J.null => .error .typeError -- null[''] throws as well
  | some variants =>
    let dv0 : Option J := getField variants ""
    let dv1 : Option J :=
      if truthyO dv0 then dv0
      else
        -- `for key in variants` + break: the first own enumerable entry
        -- (for an array that is its first element, index key "0")
        match variants with
        | J.obj ((_, v) :: _) => some v
        | J.arr (x :: _) => some x
        | _ => dv0
    let dv2 : Option J :=
      match dv1 with
      | some (J.arr l) => l.head?
      | other => other
    match dv2 with
      | none => .error .typeError
      | some J.null => .error .typeError
      | some dvv =>
        match getField dvv "model" with
        | some (J.str blockName) =>
          match getModelFile m cache blockName with
          | .error e => .error e
          | .ok (mfOpt, c1) =>
            if ¬ truthyO mfOpt then .ok (none, c1)
            else
              match mfOpt with
              | some doc =>
                let own := ownFields doc
                let pv := effectiveParent (getField doc "parent") own
                if truthyO pv then
                  match pv with
                  | some (J.str p) =>
                    match getModel m fuel p c1 with
                    | .error e => .error e
                    | .ok (pm, c2) =>
                      match finishModel pm own p with
                      | .error e => .error e
                      | .ok merged =>
                        .ok (some (J.obj (mergeObj merged [("blockName", J.str blockName)])), c2)
                  | _ => .error .typeError
                else
                  .ok (some (J.obj (mergeObj own [("blockName", J.str blockName)])), c1)
              | none => .error .typeError
        | _ => .error .typeError

/-- The `Promise.allSettled` + fulfilled-and-truthy collection loop of
`getBlockList`, linearized: each block state is resolved in turn; a
rejected resolution is skipped (its cache writes, which are
value-identical re-parses of the same files, are dropped), a fulfilled
truthy value is collected. -/
def settleAll (m : Minecraft) (fuel : Nat) : List J → Cache → List J × Cache
  | [], c => ([], c)
  | st :: rest, c =>
    match getModelFromBlockState m fuel c st with
    | .ok (some v, c') =>
      if truthy v then
        let (vs, c'') := settleAll m fuel rest c'
        (v :: vs, c'')
      else settleAll m fuel rest c'
    | .ok (none, c') => settleAll m fuel rest c'
    | .error _ => settleAll m fuel rest c

/-- `getBlockList`: resolve every block state of the namespace,
isolating per-item failures via `Promise.allSettled`. -/
def getBlockList (m : Minecraft) (fuel : Nat) (cache : Cache) (ns : String) :
    Except JsErr (List J × Cache) :=
  match getBlockStates m cache ns with
  | .error e => .error e
  | .ok (states, c1) => .ok (settleAll m fuel states c1)

/-!
## Reference-level model of the parsed-JSON cache

`clone` (`JSON.parse(JSON.stringify(input))`) matters because it
returns an *unaliased* copy of the cached document.  To state that, the
following refines the value model with an explicit heap: composite
values (arrays, objects) live in store cells addressed by `Nat`,
scalars are immediate.  `JSON.parse` allocates fresh cells for the
whole structure, which `copyV` models. -/

/-- A heap-level JS value: scalars are immediate, composites are
references into the store. -/
inductive HV where
  | hstr (s : String)
  | hnum (n : Int)
  | hbool (b : Bool)
  | hnull
  | href (a : Nat)

/-- A store cell: the mutable contents of one array or object. -/
inductive HCell where
  | harr (elems : List HV)
  | hobj (fields : List (String × HV))

/-- The heap: cells keyed by address, plus the next fresh address. -/
structure Store where
  mem : List (Nat × HCell)
  next : Nat

/-- First-match lookup in a cell list. -/
def cellFind : List (Nat × HCell) → Nat → Option HCell
  | [], _ => none
  | p :: rest, a => if p.1 = a then some p.2 else cellFind rest a

/-- Read the cell at an address. -/
def lookupCell (σ : Store) (a : Nat) : Option HCell :=
  cellFind σ.mem a

/-- Mutate the cell at an address (models any in-place mutation of the
array/object stored there). -/
def setCellS (σ : Store) (a : Nat) (c : HCell) : Store :=
  ⟨σ.mem.map (fun p => if p.1 = a then (a, c) else p), σ.next⟩

/-- Allocate a fresh cell, returning its address. -/
def allocCell (σ : Store) (c : HCell) : Store × Nat :=
  (⟨(σ.next, c) :: σ.mem, σ.next + 1⟩, σ.next)

/-- Truthiness at the heap level: references (arrays/objects) are
always truthy. -/
def truthyHV : HV → Bool
  | HV.hstr s => s ≠ ""
  | HV.hnum n => n ≠ 0
  | HV.hbool b => b
  | HV.hnull => false
  | HV.href _ => true

/-- Truthiness of a possibly-absent heap value. -/
def truthyOHV : Option HV → Bool
  | some v => truthyHV v
  | none => false

mutual

/-- Decode a heap value to its pure `J` shape, following references
(the fuel bounds the total traversal depth; every theorem below
quantifies over a sufficient fuel). -/
def decodeV (σ : Store) : Nat → HV → Option J
  | _, HV.hstr s => some (J.str s)
  | _, HV.hnum n => some (J.num n)
  | _, HV.hbool b => some (J.bool b)
  | _, HV.hnull => some J.null
  | 0, HV.href _ => none
  | fuel + 1, HV.href a =>
    match lookupCell σ a with
    | some (HCell.harr xs) => (decodeL σ fuel xs).map J.arr
    | some (HCell.hobj fs) => (decodeF σ fuel fs).map J.obj
    | none => none
termination_by structural fuel _ => fuel

/-- Decode a list of heap values. -/
def decodeL (σ : Store) : Nat → List HV → Option (List J)
  | _, [] => some []
  | 0, _ :: _ => none
  | fuel + 1, x :: rest =>
    match decodeV σ fuel x, decodeL σ fuel rest with
    | some j, some js => some (j :: js)
    | _, _ => none
termination_by structural fuel _ => fuel

/-- Decode an object field list. -/
def decodeF (σ : Store) : Nat → List (String × HV) → Option (List (String × J))
  | _, [] => some []
  | 0, _ :: _ => none
  | fuel + 1, (k, x) :: rest =>
    match decodeV σ fuel x, decodeF σ fuel rest with
    | some j, some js => some ((k, j) :: js)
    | _, _ => none
termination_by structural fuel _ => fuel

end

mutual

/-- Deep-copy a heap value: scalars are immediate, every reachable
cell is re-allocated fresh (children first, then the parent cell), as
`JSON.parse(JSON.stringify(x))` does. -/
def copyV : Nat → Store → HV → Option (Store × HV)
  | _, σ, HV.hstr s => some (σ, HV.hstr s)
  | _, σ, HV.hnum n => some (σ, HV.hnum n)
  | _, σ, HV.hbool b => some (σ, HV.hbool b)
  | _, σ, HV.hnull => some (σ, HV.hnull)
  | 0, _, HV.href _ => none
  | fuel + 1, σ, HV.href a =>
    match lookupCell σ a with
    | some (HCell.harr xs) =>
      match copyL fuel σ xs with
      | some (σ', xs') => some ((allocCell σ' (HCell.harr xs')).1,
          HV.href (allocCell σ' (HCell.harr xs')).2)
      | none => none
    | some (HCell.hobj fs) =>
      match copyF fuel σ fs with
      | some (σ', fs') => some ((allocCell σ' (HCell.hobj fs')).1,
          HV.href (allocCell σ' (HCell.hobj fs')).2)
      | none => none
    | none => none
termination_by structural fuel _ _ => fuel

/-- Deep-copy a list of heap values, threading the store. -/
def copyL : Nat → Store → List HV → Option (Store × List HV)
  | _, σ, [] => some (σ, [])
  | 0, _, _ :: _ => none
  | fuel + 1, σ, x :: rest =>
    match copyV fuel σ x with
    | some (σ1, x') =>
      match copyL fuel σ1 rest with
      | some (σ2, rest') => some (σ2, x' :: rest')
      | none => none
    | none => none
termination_by structural fuel _ _ => fuel

/-- Deep-copy an object field list, threading the store. -/
def copyF : Nat → Store → List (String × HV) → Option (Store × List (String × HV))
  | _, σ, [] => some (σ, [])
  | 0, _, _ :: _ => none
  | fuel + 1, σ, (k, x) :: rest =>
    match copyV fuel σ x with
    | some (σ1, x') =>
      match copyF fuel σ1 rest with
      | some (σ2, rest') => some (σ2, (k, x') :: rest')
      | none => none
    | none => none
termination_by structural fuel _ _ => fuel

end

mutual

/-- Allocate a pure `J` document into the store, cell by cell — what
`JSON.parse` does when `getParsedJson` parses a freshly read file. -/
def allocJ : Store → J → Store × HV
  | σ, J.str s => (σ, HV.hstr s)
  | σ, J.num n => (σ, HV.hnum n)
  | σ, J.bool b => (σ, HV.hbool b)
  | σ, J.null => (σ, HV.hnull)
  | σ, J.arr elems =>
    let (σ', xs) := allocJL σ elems
    let (σ'', a) := allocCell σ' (HCell.harr xs)
    (σ'', HV.href a)
  | σ, J.obj fields =>
    let (σ', fs) := allocJF σ fields
    let (σ'', a) := allocCell σ' (HCell.hobj fs)
    (σ'', HV.href a)

/-- Allocate each element of a list of documents. -/
def allocJL : Store → List J → Store × List HV
  | σ, [] => (σ, [])
  | σ, j :: rest =>
    let (σ1, x) := allocJ σ j
    let (σ2, xs) := allocJL σ1 rest
    (σ2, x :: xs)

/-- Allocate each field of a document object. -/
def allocJF : Store → List (String × J) → Store × List (String × HV)
  | σ, [] => (σ, [])
  | σ, (k, j) :: rest =>
    let (σ1, x) := allocJ σ j
    let (σ2, xs) := allocJF σ1 rest
    (σ2, (k, x) :: xs)

end

/-- The heap-level parsed-JSON cache: paths mapped to root values. -/
abbrev SCache := List (String × HV)

/-- `getParsedJson` at the heap level: identical control flow to the
pure embedding above, with `JSON.parse` allocating fresh cells and
`clone` performing a deep copy. -/
def getParsedJsonS (m : Minecraft) (fuel : Nat) (σ : Store) (cache : SCache) (path : String) :
    Except JsErr (Option HV × Store × SCache) :=
  let step : Except JsErr (Store × SCache) :=
    if ¬ truthyOHV (jLookup cache path) then
      match getFile m path with
      | some data =>
        match parseJson data with
        | some j =>
          let (σ', v) := allocJ σ j
          .ok (σ', setKey cache path v)
        | none => .error .parseError
      | none => .ok (σ, cache)
    else .ok (σ, cache)
  match step with
  | .error e => .error e
  | .ok (σ', cache') =>
    match jLookup cache' path with
    | some v =>
      if truthyHV v then
        match copyV fuel σ' v with
        | some (σ'', r) => .ok (some r, σ'', cache')
        | none => .error .outOfFuel
      else .ok (none, σ', cache')
    | none => .ok (none, σ', cache')

/-- All reference targets inside a heap value satisfy `P`. -/
def VOK (P : Nat → Prop) : HV → Prop
  | HV.href a => P a
  | _ => True

/-- All reference targets inside a cell satisfy `P`. -/
def CellOK (P : Nat → Prop) : HCell → Prop
  | HCell.harr xs => ∀ x ∈ xs, VOK P x
  | HCell.hobj fs => ∀ f ∈ fs, VOK P f.2

/-- The store segment selected by `P` is closed: cells at `P`-addresses
only reference `P`-addresses. -/
def SegClosed (σ : Store) (P : Nat → Prop) : Prop :=
  ∀ p ∈ σ.mem, P p.1 → CellOK P p.2

/-- Well-formed store: every cell address is below `next`, and every
reference inside any cell is below `next` as well. -/
def WFStore (σ : Store) : Prop :=
  (∀ p ∈ σ.mem, p.1 < σ.next) ∧ (∀ p ∈ σ.mem, CellOK (fun x => x < σ.next) p.2)

/-!
## Concrete fixtures used by witnesses and counterexamples
-/

/-- A jar with no content at all. -/
def emptyJar : Jar := ⟨fun _ => none, fun _ => none⟩

/-- An instance with no content anywhere. -/
def mEmpty : Minecraft := { jar := emptyJar, modidJars := [] }

/-- Primary content of the shared path. -/
def bufP : Buf := Buf.json (J.str "primary")

/-- Auxiliary content. -/
def bufA : Buf := Buf.json (J.str "aux")

/-- Primary jar holding only `shared.bin`. -/
def jar4Main : Jar :=
  ⟨fun p => if p = "shared.bin" then some bufP else none, fun _ => none⟩

/-- Auxiliary jar holding `shared.bin` (conflicting) and `only.bin`. -/
def jar4Aux : Jar :=
  ⟨fun p => if p = "shared.bin" then some bufA
    else if p = "only.bin" then some bufA else none, fun _ => none⟩

/-- Instance with one registered auxiliary jar. -/
def m4 : Minecraft := { jar := jar4Main, modidJars := [("mod", jar4Aux)] }

/-- Instance constructed with a non-default namespace. -/
def m5 : Minecraft := { jar := emptyJar, modidJars := [], defaultNamespace := "mymod" }

/-- A jar whose only file parses to the falsy document `null`. -/
def nullJar : Jar :=
  ⟨fun p => if p = "data.json" then some (Buf.json J.null) else none, fun _ => none⟩

/-- Instance around `nullJar`. -/
def mNull : Minecraft := { jar := nullJar, modidJars := [] }

/-- Model-chain fixture: path of model `a`. -/
def pA : String := "assets/minecraft/models/block/a.json"

/-- Path of model `b`. -/
def pB : String := "assets/minecraft/models/block/b.json"

/-- Path of model `c`. -/
def pC : String := "assets/minecraft/models/block/c.json"

/-- Chain fixture: `a` has parent `b`, its own scalar `x` and nested
mapping `tex`. -/
def docA : J := J.obj [("parent", J.str "b"), ("x", J.num 1), ("tex", J.obj [("top", J.str "ta")])]

/-- `b` has parent `c` and scalars `x`, `y`. -/
def docB : J := J.obj [("parent", J.str "c"), ("x", J.num 2), ("y", J.num 5)]

/-- `c` has GUI display data (so no fallback parent), a scalar `z` and
a nested mapping `tex`. -/
def docC : J := J.obj [("display", J.obj [("gui", J.obj [("rot", J.num 30)])]),
  ("z", J.num 9), ("tex", J.obj [("top", J.str "tc"), ("side", J.str "sc")])]

/-- Instance holding the three chain models. -/
def mc3 : Minecraft :=
  { jar := ⟨fun p =>
      if p = pA then some (Buf.json docA)
      else if p = pB then some (Buf.json docB)
      else if p = pC then some (Buf.json docC)
      else none, fun _ => none⟩,
    modidJars := [] }

/-- The `parents` field of a resolution outcome. -/
def resultParents (r : Except JsErr (J × Cache)) : Option J :=
  match r with
  | .ok (j, _) => getField j "parents"
  | .error _ => none

/-- Fallback fixture: a model with no `parent` and no display data. -/
def docFoo : J := J.obj [("textures", J.obj [("all", J.str "block/stone")])]

/-- The root `block/block` model, carrying GUI display data. -/
def docRoot : J := J.obj [("display", J.obj [("gui", J.obj [("rot", J.num 30)])])]

/-- Path of the `foo` model. -/
def pFoo : String := "assets/minecraft/models/block/foo.json"

/-- Path of the root `block/block` model. -/
def pRoot : String := "assets/minecraft/models/block/block.json"

/-- Instance holding the fallback fixture. -/
def mFB : Minecraft :=
  { jar := ⟨fun p => if p = pFoo then some (Buf.json docFoo)
      else if p = pRoot then some (Buf.json docRoot) else none, fun _ => none⟩,
    modidJars := [] }

/-- Batch fixture: block state of the `good` block (empty-string
variant). -/
def bsGood : J := J.obj [("variants", J.obj [("", J.obj [("model", J.str "good")])])]

/-- Block state of the `bad` block. -/
def bsBad : J := J.obj [("variants", J.obj [("", J.obj [("model", J.str "bad")])])]

/-- The `good` model: resolvable without recursion. -/
def docGood : J := J.obj [("display", J.obj [("gui", J.obj [("g", J.num 1)])]), ("v", J.num 7)]

/-- The `bad` model: its parent `ghost` does not exist anywhere, so
its chain is broken. -/
def docBad : J := J.obj [("parent", J.str "ghost")]

/-- Blockstate path of `good`. -/
def pGoodBS : String := "assets/minecraft/blockstates/good.json"

/-- Blockstate path of `bad`. -/
def pBadBS : String := "assets/minecraft/blockstates/bad.json"

/-- Model path of `good`. -/
def pGoodM : String := "assets/minecraft/models/block/good.json"

/-- Model path of `bad`. -/
def pBadM : String := "assets/minecraft/models/block/bad.json"

/-- Instance with one broken (`bad`, listed first) and one valid
(`good`) block. -/
def mBL : Minecraft :=
  { jar := ⟨fun p =>
      if p = pGoodBS then some (Buf.json bsGood)
      else if p = pBadBS then some (Buf.json bsBad)
      else if p = pGoodM then some (Buf.json docGood)
      else if p = pBadM then some (Buf.json docBad)
      else none,
      fun p => if p = "assets/minecraft/blockstates" then some [pBadBS, pGoodBS] else none⟩,
    modidJars := [] }

/-- Store fixture for the clone-independence witness: address 0 holds
the parsed object `{"x": "1"}`. -/
def cloneStore : Store := ⟨[(0, HCell.hobj [("x", HV.hstr "1")])], 1⟩

/-- Cache fixture: path "p" maps to a reference to the cached object. -/
def cloneCache : SCache := [("p", HV.href 0)]

/-!
## Association-list and merge lemmas
-/

theorem jLookup_setKey_self {α : Type} (l : List (String × α)) (k : String) (v : α) :
    jLookup (setKey l k v) k = some v := by
  induction l with
  | nil => simp [setKey, jLookup]
  | cons p rest ih =>
    by_cases h : p.1 = k
    · simp [setKey, h, jLookup]
    · simp [setKey, h, jLookup, ih]

theorem jLookup_setKey_ne {α : Type} (l : List (String × α)) (k k' : String) (v : α)
    (h : k' ≠ k) : jLookup (setKey l k v) k' = jLookup l k' := by
  have hk : k ≠ k' := Ne.symm h
  induction l with
  | nil => simp [setKey, jLookup, hk]
  | cons p rest ih =>
    by_cases hp : p.1 = k
    · have hp' : p.1 ≠ k' := by rw [hp]; exact hk
      simp [setKey, jLookup, hp, hp', hk]
    · simp only [setKey, hp, if_false, jLookup]
      rw [ih]

theorem jLookup_eq_none {α : Type} (l : List (String × α)) (k : String)
    (h : ∀ e ∈ l, e.1 ≠ k) : jLookup l k = none := by
  induction l with
  | nil => rfl
  | cons p rest ih =>
    have hp := h p (by simp)
    simp [jLookup, hp]
    exact ih (fun e he => h e (by simp [he]))

theorem setKey_notin {α : Type} (l : List (String × α)) (k : String) (v : α)
    (h : ∀ e ∈ l, e.1 ≠ k) : setKey l k v = l ++ [(k, v)] := by
  induction l with
  | nil => rfl
  | cons p rest ih =>
    have hp := h p (by simp)
    simp [setKey, hp]
    exact ih (fun e he => h e (by simp [he]))

theorem setKey_keys {α : Type} (l : List (String × α)) (k : String) (v : α) :
    (setKey l k v).map Prod.fst =
      if k ∈ l.map Prod.fst then l.map Prod.fst else l.map Prod.fst ++ [k] := by
  induction l with
  | nil => simp [setKey]
  | cons p rest ih =>
    by_cases hp : p.1 = k
    · simp [setKey, hp]
    · simp only [setKey, hp, if_false, List.map_cons, ih]
      by_cases hm : k ∈ rest.map Prod.fst
      · simp [hm, Ne.symm hp]
      · simp [hm, Ne.symm hp]

theorem setKey_keys_nodup {α : Type} (l : List (String × α)) (k : String) (v : α)
    (h : (l.map Prod.fst).Nodup) : ((setKey l k v).map Prod.fst).Nodup := by
  rw [setKey_keys]
  by_cases hm : k ∈ l.map Prod.fst
  · simpa [hm] using h
  · simp only [hm, if_false]
    rw [List.nodup_append]
    refine ⟨h, by simp, ?_⟩
    intro a ha hb
    simp only [List.mem_singleton] at hb
    exact hm (hb ▸ ha)

theorem mergeObj_nil_right (t : List (String × J)) : mergeObj t [] = t := rfl

theorem mergeObj_cons (t : List (String × J)) (k : String) (v : J) (rest : List (String × J)) :
    mergeObj t ((k, v) :: rest) =
      if isValidKey k then
        match lookupObj t k, v with
        | some tv, J.obj sv => mergeObj (setKey t k (J.obj (mergeObj tv sv))) rest
        | _, _ => mergeObj (setKey t k v) rest
      else mergeObj t rest := by
  have hvpos : 0 < sizeJ v := sizeJ_pos v
  have hsz : sizeJO ((k, v) :: rest) = (sizeJ v + sizeJO rest) + 1 := by
    rw [sizeJO_cons]; omega
  show mergeObjF (sizeJO ((k, v) :: rest)) t ((k, v) :: rest) = _
  rw [hsz]
  by_cases hval : isValidKey k
  · cases hlo : lookupObj t k with
    | none =>
      cases v with
      | obj sv =>
        simp only [mergeObjF, hval, hlo, if_true]
        exact mergeObjF_eq_mergeObj _ _ rest (by omega)
      | str s' =>
        simp only [mergeObjF, hval, hlo, if_true]
        exact mergeObjF_eq_mergeObj _ _ rest (by omega)
      | num n' =>
        simp only [mergeObjF, hval, hlo, if_true]
        exact mergeObjF_eq_mergeObj _ _ rest (by omega)
      | bool b' =>
        simp only [mergeObjF, hval, hlo, if_true]
        exact mergeObjF_eq_mergeObj _ _ rest (by omega)
      | null =>
        simp only [mergeObjF, hval, hlo, if_true]
        exact mergeObjF_eq_mergeObj _ _ rest (by omega)
      | arr l' =>
        simp only [mergeObjF, hval, hlo, if_true]
        exact mergeObjF_eq_mergeObj _ _ rest (by omega)
    | some tv =>
      cases v with
      | obj sv =>
        simp only [mergeObjF, hval, hlo, if_true]
        rw [mergeObjF_eq_mergeObj _ tv sv (by have := sizeJ_obj sv; omega)]
        exact mergeObjF_eq_mergeObj _ _ rest (by omega)
      | str s' =>
        simp only [mergeObjF, hval, hlo, if_true]
        exact mergeObjF_eq_mergeObj _ _ rest (by omega)
      | num n' =>
        simp only [mergeObjF, hval, hlo, if_true]
        exact mergeObjF_eq_mergeObj _ _ rest (by omega)
      | bool b' =>
        simp only [mergeObjF, hval, hlo, if_true]
        exact mergeObjF_eq_mergeObj _ _ rest (by omega)
      | null =>
        simp only [mergeObjF, hval, hlo, if_true]
        exact mergeObjF_eq_mergeObj _ _ rest (by omega)
      | arr l' =>
        simp only [mergeObjF, hval, hlo, if_true]
        exact mergeObjF_eq_mergeObj _ _ rest (by omega)
  · simp only [mergeObjF, hval, if_false]
    exact mergeObjF_eq_mergeObj _ _ rest (by omega)

/-- One merge step always continues with the target either unchanged or
updated by a `setKey` at the head key. -/
theorem mergeObj_cons_setKey (t : List (String × J)) (k : String) (v : J)
    (rest : List (String × J)) (hv : isValidKey k = true) :
    ∃ w, mergeObj t ((k, v) :: rest) = mergeObj (setKey t k w) rest ∧
      (w = v ∨ ∃ tv sv, v = J.obj sv ∧ lookupObj t k = some tv ∧ w = J.obj (mergeObj tv sv)) := by
  rw [mergeObj_cons]
  simp only [hv, if_true]
  match hlo : lookupObj t k, v with
  | some tv, J.obj sv =>
    exact ⟨J.obj (mergeObj tv sv), rfl, Or.inr ⟨tv, sv, rfl, rfl, rfl⟩⟩
  | none, J.obj sv => exact ⟨J.obj sv, rfl, Or.inl rfl⟩
  | none, J.str s => exact ⟨J.str s, rfl, Or.inl rfl⟩
  | some tv, J.str s => exact ⟨J.str s, rfl, Or.inl rfl⟩
  | none, J.num n => exact ⟨J.num n, rfl, Or.inl rfl⟩
  | some tv, J.num n => exact ⟨J.num n, rfl, Or.inl rfl⟩
  | none, J.bool b => exact ⟨J.bool b, rfl, Or.inl rfl⟩
  | some tv, J.bool b => exact ⟨J.bool b, rfl, Or.inl rfl⟩
  | none, J.null => exact ⟨J.null, rfl, Or.inl rfl⟩
  | some tv, J.null => exact ⟨J.null, rfl, Or.inl rfl⟩
  | none, J.arr l => exact ⟨J.arr l, rfl, Or.inl rfl⟩
  | some tv, J.arr l => exact ⟨J.arr l, rfl, Or.inl rfl⟩

theorem mergeObj_cons_invalid (t : List (String × J)) (k : String) (v : J)
    (rest : List (String × J)) (hv : isValidKey k = false) :
    mergeObj t ((k, v) :: rest) = mergeObj t rest := by
  rw [mergeObj_cons, hv]
  simp

theorem mergeObj_jLookup_notin (t s : List (String × J)) (k : String)
    (h : ∀ e ∈ s, e.1 ≠ k) : jLookup (mergeObj t s) k = jLookup t k := by
  induction s generalizing t with
  | nil => simp [mergeObj_nil_right]
  | cons p rest ih =>
    obtain ⟨k0, v0⟩ := p
    have hk0 : k0 ≠ k := h (k0, v0) (by simp)
    have hrest : ∀ e ∈ rest, e.1 ≠ k := fun e he => h e (by simp [he])
    by_cases hv : isValidKey k0
    · obtain ⟨w, heq, -⟩ := mergeObj_cons_setKey t k0 v0 rest hv
      rw [heq, ih _ hrest, jLookup_setKey_ne _ _ _ _ (Ne.symm hk0)]
    · rw [mergeObj_cons_invalid _ _ _ _ (by simpa using hv), ih _ hrest]

/-- Splitting key-Nodup of a cons. -/
theorem keys_nodup_cons {α : Type} (k0 : String) (v0 : α) (rest : List (String × α))
    (hnd : (((k0, v0) :: rest).map Prod.fst).Nodup) :
    (∀ e ∈ rest, e.1 ≠ k0) ∧ (rest.map Prod.fst).Nodup := by
  simp only [List.map_cons] at hnd
  rcases List.nodup_cons.mp hnd with ⟨hnot, hrest⟩
  refine ⟨?_, hrest⟩
  intro e he hcontra
  exact hnot (hcontra ▸ List.mem_map_of_mem Prod.fst he)

theorem mergeObj_keys_nodup (t s : List (String × J))
    (h : (t.map Prod.fst).Nodup) : ((mergeObj t s).map Prod.fst).Nodup := by
  induction s generalizing t with
  | nil => simpa [mergeObj_nil_right] using h
  | cons p rest ih =>
    obtain ⟨k0, v0⟩ := p
    by_cases hv : isValidKey k0
    · obtain ⟨w, heq, -⟩ := mergeObj_cons_setKey t k0 v0 rest hv
      rw [heq]
      exact ih _ (setKey_keys_nodup _ _ _ h)
    · rw [mergeObj_cons_invalid _ _ _ _ (by simpa using hv)]
      exact ih _ h

/-- A merge step whose head entry is not the object-over-object case
reduces to a plain `setKey`. -/
theorem mergeObj_cons_simple (t : List (String × J)) (k : String) (v : J)
    (rest : List (String × J)) (hv : isValidKey k = true)
    (h : lookupObj t k = none ∨ isPlainObj v = false) :
    mergeObj t ((k, v) :: rest) = mergeObj (setKey t k v) rest := by
  obtain ⟨w, heq, hw⟩ := mergeObj_cons_setKey t k v rest hv
  rcases hw with rfl | ⟨tv, sv, rfl, hlo, rfl⟩
  · exact heq
  · rcases h with h' | h'
    · rw [h'] at hlo
      cases hlo
    · simp [isPlainObj] at h'

/-- A merge step in the object-over-object case merges the two field
lists recursively. -/
theorem mergeObj_cons_objcase (t : List (String × J)) (k : String)
    (tv sv : List (String × J)) (rest : List (String × J))
    (hv : isValidKey k = true) (hlo : lookupObj t k = some tv) :
    mergeObj t ((k, J.obj sv) :: rest) =
      mergeObj (setKey t k (J.obj (mergeObj tv sv))) rest := by
  rw [mergeObj_cons, hv]
  simp only [if_true, hlo]

theorem mergeObj_disjoint_append (t s : List (String × J))
    (hval : ∀ e ∈ s, isValidKey e.1 = true)
    (hdis : ∀ e ∈ s, ∀ e' ∈ t, e.1 ≠ e'.1)
    (hnd : (s.map Prod.fst).Nodup) :
    mergeObj t s = t ++ s := by
  induction s generalizing t with
  | nil => simp [mergeObj_nil_right]
  | cons p rest ih =>
    obtain ⟨k0, v0⟩ := p
    have hv : isValidKey k0 = true := hval (k0, v0) (by simp)
    have hnone : jLookup t k0 = none :=
      jLookup_eq_none _ _ (fun e he => Ne.symm (hdis (k0, v0) (by simp) e he))
    have hlo : lookupObj t k0 = none := by simp [lookupObj, hnone]
    have hset : setKey t k0 v0 = t ++ [(k0, v0)] :=
      setKey_notin _ _ _ (fun e he => Ne.symm (hdis (k0, v0) (by simp) e he))
    rw [mergeObj_cons_simple _ _ _ _ hv (Or.inl hlo), hset]
    obtain ⟨hnotin, hnd'⟩ := keys_nodup_cons _ _ _ hnd
    rw [ih _ (fun e he => hval e (by simp [he]))
        (fun e he e' he' => by
          rcases List.mem_append.mp he' with h' | h'
          · exact hdis e (by simp [he]) e' h'
          · simp only [List.mem_singleton] at h'
            subst h'
            exact hnotin e he)
        hnd']
    simp

theorem mergeObj_nil_left (s : List (String × J))
    (hval : ∀ e ∈ s, isValidKey e.1 = true)
    (hnd : (s.map Prod.fst).Nodup) :
    mergeObj [] s = s := by
  simpa using mergeObj_disjoint_append [] s hval (by simp) hnd

/-- Replacement at a key whose source value is not a plain object: the
child value fully replaces whatever the target held. -/
theorem mergeObj_jLookup_replace (t s : List (String × J)) (k : String) (v : J)
    (hnd : (s.map Prod.fst).Nodup) (hval : isValidKey k = true)
    (hs : jLookup s k = some v) (hv : isPlainObj v = false) :
    jLookup (mergeObj t s) k = some v := by
  induction s generalizing t with
  | nil => simp [jLookup] at hs
  | cons p rest ih =>
    obtain ⟨k0, v0⟩ := p
    obtain ⟨hnotin, hnd'⟩ := keys_nodup_cons _ _ _ hnd
    by_cases hk : k0 = k
    · subst hk
      have hv0 : v0 = v := by simpa [jLookup] using hs
      subst hv0
      rw [mergeObj_cons_simple _ _ _ _ hval (Or.inr hv),
        mergeObj_jLookup_notin _ _ _ hnotin, jLookup_setKey_self]
    · have hs' : jLookup rest k = some v := by simpa [jLookup, hk] using hs
      by_cases hv0 : isValidKey k0
      · obtain ⟨w, heq, -⟩ := mergeObj_cons_setKey t k0 v0 rest hv0
        rw [heq]
        exact ih _ hnd' hs'
      · rw [mergeObj_cons_invalid _ _ _ _ (by simpa using hv0)]
        exact ih _ hnd' hs'

/-- Replacement at a key the target does not hold as a plain object:
the child value (object or not) replaces wholesale. -/
theorem mergeObj_jLookup_target_not_obj (t s : List (String × J)) (k : String) (v : J)
    (hnd : (s.map Prod.fst).Nodup) (hval : isValidKey k = true)
    (hs : jLookup s k = some v) (hlo : lookupObj t k = none) :
    jLookup (mergeObj t s) k = some v := by
  induction s generalizing t with
  | nil => simp [jLookup] at hs
  | cons p rest ih =>
    obtain ⟨k0, v0⟩ := p
    obtain ⟨hnotin, hnd'⟩ := keys_nodup_cons _ _ _ hnd
    by_cases hk : k0 = k
    · subst hk
      have hv0 : v0 = v := by simpa [jLookup] using hs
      subst hv0
      rw [mergeObj_cons_simple _ _ _ _ hval (Or.inl hlo),
        mergeObj_jLookup_notin _ _ _ hnotin, jLookup_setKey_self]
    · have hs' : jLookup rest k = some v := by simpa [jLookup, hk] using hs
      by_cases hv0 : isValidKey k0
      · obtain ⟨w, heq, -⟩ := mergeObj_cons_setKey t k0 v0 rest hv0
        rw [heq]
        refine ih _ hnd' hs' ?_
        simpa [lookupObj, jLookup_setKey_ne _ _ _ _ (Ne.symm hk)] using hlo
      · rw [mergeObj_cons_invalid _ _ _ _ (by simpa using hv0)]
        exact ih _ hnd' hs' hlo

/-- The object-over-object case at a key: both sides are plain objects
and they are merged key by key. -/
theorem mergeObj_jLookup_obj_obj (t s : List (String × J)) (k : String)
    (tv sv : List (String × J))
    (hnd : (s.map Prod.fst).Nodup) (hval : isValidKey k = true)
    (hs : jLookup s k = some (J.obj sv)) (hlo : lookupObj t k = some tv) :
    jLookup (mergeObj t s) k = some (J.obj (mergeObj tv sv)) := by
  induction s generalizing t tv with
  | nil => simp [jLookup] at hs
  | cons p rest ih =>
    obtain ⟨k0, v0⟩ := p
    obtain ⟨hnotin, hnd'⟩ := keys_nodup_cons _ _ _ hnd
    by_cases hk : k0 = k
    · subst hk
      have hv0 : v0 = J.obj sv := by simpa [jLookup] using hs
      subst hv0
      rw [mergeObj_cons_objcase _ _ tv sv _ hval hlo,
        mergeObj_jLookup_notin _ _ _ hnotin, jLookup_setKey_self]
    · have hs' : jLookup rest k = some (J.obj sv) := by simpa [jLookup, hk] using hs
      by_cases hv0 : isValidKey k0
      · obtain ⟨w, heq, -⟩ := mergeObj_cons_setKey t k0 v0 rest hv0
        rw [heq]
        refine ih _ tv hnd' hs' ?_
        simpa [lookupObj, jLookup_setKey_ne _ _ _ _ (Ne.symm hk)] using hlo
      · rw [mergeObj_cons_invalid _ _ _ _ (by simpa using hv0)]
        exact ih _ tv hnd' hs' hlo

/-!
## `getModel` step lemmas
-/

theorem getModel_zero (m : Minecraft) (name : String) (cache : Cache) :
    getModel m 0 name cache = .error .outOfFuel := rfl

theorem getModel_succ_err (m : Minecraft) (F : Nat) (name : String) (cache : Cache)
    (e : JsErr) (h1 : getModelFile m cache name = .error e) :
    getModel m (F + 1) name cache = .error e := by
  simp only [getModel, h1]

theorem getModel_succ_notfound (m : Minecraft) (F : Nat) (name : String) (cache : Cache)
    (c1 : Cache) (h1 : getModelFile m cache name = .ok (none, c1)) :
    getModel m (F + 1) name cache = .error .typeError := by
  simp only [getModel, h1]

theorem getModel_succ_parent (m : Minecraft) (F : Nat) (name : String) (cache : Cache)
    (doc : J) (c1 : Cache) (p : String)
    (h1 : getModelFile m cache name = .ok (some doc, c1))
    (hp : effectiveParent (getField doc "parent") (ownFields doc) = some (J.str p))
    (hne : p ≠ "") :
    getModel m (F + 1) name cache =
      match getModel m F p c1 with
      | .error e => .error e
      | .ok (pm, c2) =>
        match finishModel pm (ownFields doc) p with
        | .error e => .error e
        | .ok merged => .ok (J.obj (mergeObj merged [("blockName", J.str name)]), c2) := by
  have htr : truthyO (some (J.str p)) = true := by simp [truthyO, truthy, hne]
  simp only [getModel, h1, hp, htr, if_true]

theorem getModel_succ_noparent (m : Minecraft) (F : Nat) (name : String) (cache : Cache)
    (doc : J) (c1 : Cache)
    (h1 : getModelFile m cache name = .ok (some doc, c1))
    (hp : truthyO (effectiveParent (getField doc "parent") (ownFields doc)) = false) :
    getModel m (F + 1) name cache =
      .ok (J.obj (mergeObj (ownFields doc) [("blockName", J.str name)]), c1) := by
  simp only [getModel, h1, hp]
  simp

/-!
## Claim theorems: source-set lookup, identifiers, missing resources
-/

theorem readAux_append (l1 l2 : List (String × Jar)) (p : String) :
    readAux (l1 ++ l2) p =
      (match readAux l1 p with
       | some b => some b
       | none => readAux l2 p) := by
  induction l1 with
  | nil => simp [readAux]
  | cons e rest ih =>
    obtain ⟨k, jar⟩ := e
    simp only [List.cons_append, readAux]
    cases jar.read p <;> simp [ih]

theorem readAux_none_iff (l : List (String × Jar)) (p : String) :
    readAux l p = none ↔ ∀ e ∈ l, e.2.read p = none := by
  induction l with
  | nil => simp [readAux]
  | cons e rest ih =>
    obtain ⟨k, jar⟩ := e
    simp only [readAux]
    cases h : jar.read p <;> simp [h, ih]

/-- C4: `getFile` reads the primary jar first and its non-null result
wins even when an auxiliary jar also holds the path; when the primary
fails it tries the registered jars in registration order, swallowing
per-source failures, and returns the first non-null result; it returns
null exactly when every source has failed. -/
theorem getFile_contract (m : Minecraft) (p : String) :
    (∀ b, m.jar.read p = some b → getFile m p = some b) ∧
    (m.jar.read p = none →
      ∀ l1 k jar l2, m.modidJars = l1 ++ (k, jar) :: l2 →
        (∀ e ∈ l1, e.2.read p = none) →
        getFile m p =
          (match jar.read p with
           | some b => some b
           | none => readAux l2 p)) ∧
    (getFile m p = none ↔ m.jar.read p = none ∧ ∀ e ∈ m.modidJars, e.2.read p = none) := by
  refine ⟨?_, ?_, ?_⟩
  · intro b hb
    simp [getFile, hb]
  · intro h0 l1 k jar l2 hsplit hnone
    simp only [getFile, h0]
    rw [hsplit, readAux_append, (readAux_none_iff l1 p).mpr hnone]
    simp only [readAux]
    cases jar.read p <;> rfl
  · simp only [getFile]
    cases h : m.jar.read p
    · simp [h, readAux_none_iff]
    · simp [h]

/-- C4 witness: on concrete jars, the primary wins for a conflicting
path, the single auxiliary serves a path the primary lacks, and a path
held nowhere yields null. -/
theorem getFile_contract_witness :
    getFile m4 "shared.bin" = some bufP ∧
    getFile m4 "only.bin" = some bufA ∧
    getFile m4 "nope.bin" = none := by
  refine ⟨(getFile_contract m4 "shared.bin").1 bufP rfl, ?_, ?_⟩
  · have h := (getFile_contract m4 "only.bin").2.1 rfl [] "mod" jar4Aux [] rfl (by simp)
    exact h.trans rfl
  · refine (getFile_contract m4 "nope.bin").2.2.mpr ⟨rfl, ?_⟩
    intro e he
    have : e = ("mod", jar4Aux) := by simpa [m4] using he
    subst this
    rfl

/-- C5 counterexample: an instance constructed with default namespace
`mymod` still resolves the unprefixed name `stone` to the fixed
namespace `minecraft` — the configured default namespace is not used. -/
theorem id_default_namespace_counterexample :
    (Minecraft.id m5 "stone").ns = "minecraft" ∧
    m5.defaultNamespace = "mymod" ∧
    (Minecraft.id m5 "stone").ns ≠ m5.defaultNamespace :=
  ⟨rfl, rfl, by decide⟩

theorem splitColonCh_no_colon (l : List Char) (h : ∀ c ∈ l, c ≠ ':') :
    splitColonCh l = [l] := by
  induction l with
  | nil => rfl
  | cons x rest ih =>
    have hx : x ≠ ':' := h x (by simp)
    have := ih (fun c hc => h c (by simp [hc]))
    simp [splitColonCh, hx, this]

theorem splitColonCh_append_colon (l1 l2 : List Char) (h : ∀ c ∈ l1, c ≠ ':') :
    splitColonCh (l1 ++ ':' :: l2) = l1 :: splitColonCh l2 := by
  induction l1 with
  | nil => simp [splitColonCh]
  | cons x rest ih =>
    have hx : x ≠ ':' := h x (by simp)
    have := ih (fun c hc => h c (by simp [hc]))
    simp [splitColonCh, hx, this]

/-- C5 amended: the identifier resolver assigns the *fixed* namespace
`minecraft` to every name without a `:` — regardless of the configured
default namespace — and splits a prefixed name `ns:id` into namespace
`ns` and local id `id`. -/
theorem id_resolution_amended (m : Minecraft) (name ns id2 : String) :
    (hasColon name = false → Minecraft.id m name = ⟨"minecraft", name⟩) ∧
    (hasColon ns = false → hasColon id2 = false →
      Minecraft.id m (ns ++ ":" ++ id2) = ⟨ns, id2⟩) := by
  constructor
  · intro h
    simp [Minecraft.id, h]
  · intro hns hid
    have hdata : (ns ++ ":" ++ id2).data = ns.data ++ ':' :: id2.data := by
      simp [String.data_append]
    have hns' : ∀ c ∈ ns.data, c ≠ ':' := by
      intro c hc
      simp only [hasColon, List.any_eq_false, decide_eq_true_eq] at hns
      exact hns c hc
    have hid' : ∀ c ∈ id2.data, c ≠ ':' := by
      intro c hc
      simp only [hasColon, List.any_eq_false, decide_eq_true_eq] at hid
      exact hid c hc
    have hsplit : splitColonCh (ns.data ++ ':' :: id2.data) = [ns.data, id2.data] := by
      rw [splitColonCh_append_colon _ _ hns', splitColonCh_no_colon _ hid']
    have hcol : hasColon (ns ++ ":" ++ id2) = true := by
      simp [hasColon, hdata]
    simp only [Minecraft.id, hcol, if_true, jsSplitColon, hdata, hsplit, List.map_cons,
      List.map_nil]
    rfl

/-- C5 amended witness: at concrete inputs, `stone` resolves to
namespace `minecraft` (not the configured `mymod`), and `foo:bar`
resolves to namespace `foo`, local id `bar`. -/
theorem id_resolution_amended_witness :
    Minecraft.id m5 "stone" = ⟨"minecraft", "stone"⟩ ∧
    Minecraft.id m5 "foo:bar" = ⟨"foo", "bar"⟩ := by
  refine ⟨(id_resolution_amended m5 "stone" "" "").1 (by decide), ?_⟩
  have h := (id_resolution_amended m5 "x" "foo" "bar").2 (by decide) (by decide)
  exact h

/-- C6: a model name whose file is missing from every source does not
raise any error from `getModelFile` — the dead `catch` never fires —
and the resolution chain instead fails later with an anonymous
`TypeError` when `getModel` destructures the fulfilled `undefined`. -/
theorem getModelFile_missing_no_error (m : Minecraft) (cache : Cache) (name : String) (F : Nat)
    (hcache : jLookup cache (modelPath m name) = none)
    (hmiss : getFile m (modelPath m name) = none) :
    getModelFile m cache name = .ok (none, cache) ∧
    getModel m (F + 1) name cache = .error .typeError := by
  have h1 : getModelFile m cache name = .ok (none, cache) := by
    simp [getModelFile, getParsedJson, hcache, hmiss, truthyO]
  exact ⟨h1, getModel_succ_notfound _ _ _ _ _ h1⟩

/-- C6 witness: on an instance with no content at all, resolving the
model `missing` fulfills `getModelFile` with `undefined` and rejects
`getModel` with a `TypeError` — not with a `ModelNotFoundError`. -/
theorem getModelFile_missing_no_error_witness :
    getModelFile mEmpty [] "missing" = .ok (none, []) ∧
    getModel mEmpty 1 "missing" [] = .error .typeError :=
  getModelFile_missing_no_error mEmpty [] "missing" 0 rfl rfl

/-- C7: a texture that exists in no source makes `getTextureFile`
fulfill with `null` — the `TextureNotFoundError` throw is dead code
because `getFile` never rejects. -/
theorem getTextureFile_missing_no_error (m : Minecraft) (name : String)
    (hmiss : getFile m (texturePath m name) = none) :
    getTextureFile m name = .ok none := by
  simp [getTextureFile, hmiss]

/-- C7 witness: requesting the texture `stone` on an instance without
content fulfills with `null` rather than raising. -/
theorem getTextureFile_missing_no_error_witness :
    getTextureFile mEmpty "stone" = .ok none :=
  getTextureFile_missing_no_error mEmpty "stone" rfl

/-- C10 counterexample: a file that parses to the falsy document
`null` *does* create a cache entry — `_cache[path]` is assigned the
parsed `null` — so the claim's "never creates a cache entry for that
path" is false (the call still returns `undefined`). -/
theorem getParsedJson_falsy_creates_entry_counterexample :
    getParsedJson mNull [] "data.json" = .ok (none, [("data.json", J.null)]) ∧
    ([("data.json", J.null)] : Cache) ≠ [] ∧
    jLookup [("data.json", J.null)] "data.json" = some J.null := by
  refine ⟨rfl, by simp, rfl⟩

/-- C10 amended: on a file that reads and parses successfully to a
falsy document, every call of `getParsedJson` returns `undefined` and
stores the falsy parsed value into the cache; because the stored entry
is falsy it is treated as a miss, so each subsequent call re-reads and
re-parses the file (the second conjunct re-establishes the premise for
the next call). -/
theorem getParsedJson_falsy_amended (m : Minecraft) (cache : Cache) (path : String)
    (buf : Buf) (j : J)
    (hcache : truthyO (jLookup cache path) = false)
    (hfile : getFile m path = some buf)
    (hparse : parseJson buf = some j)
    (hfalsy : truthy j = false) :
    getParsedJson m cache path = .ok (none, setKey cache path j) ∧
    truthyO (jLookup (setKey cache path j) path) = false := by
  have hset : jLookup (setKey cache path j) path = some j := jLookup_setKey_self _ _ _
  constructor
  · simp [getParsedJson, hcache, hfile, hparse, hset, hfalsy]
  · simp [truthyO, hset, hfalsy]

/-- C10 amended witness: two successive calls on the `null`-document
fixture both return `undefined` and both re-read and re-parse,
leaving the falsy entry in the cache. -/
theorem getParsedJson_falsy_amended_witness :
    (getParsedJson mNull [] "data.json" = .ok (none, setKey [] "data.json" J.null) ∧
      truthyO (jLookup (setKey [] "data.json" J.null) "data.json") = false) ∧
    (getParsedJson mNull (setKey [] "data.json" J.null) "data.json" =
        .ok (none, setKey (setKey [] "data.json" J.null) "data.json" J.null) ∧
      truthyO (jLookup (setKey (setKey [] "data.json" J.null) "data.json" J.null)
          "data.json") = false) := by
  refine ⟨getParsedJson_falsy_amended mNull [] "data.json" (Buf.json J.null) J.null rfl rfl rfl rfl, ?_⟩
  exact getParsedJson_falsy_amended mNull (setKey [] "data.json" J.null) "data.json"
    (Buf.json J.null) J.null (by rfl) rfl rfl rfl

theorem jLookup_none_iff {α : Type} (l : List (String × α)) (k : String) :
    jLookup l k = none ↔ ∀ e ∈ l, e.1 ≠ k := by
  induction l with
  | nil => simp [jLookup]
  | cons p rest ih =>
    by_cases hp : p.1 = k
    · simp [jLookup, hp]
    · simp [jLookup, hp, ih]

theorem mergeObj_single_simple (t : List (String × J)) (k : String) (v : J)
    (hval : isValidKey k = true) (hv : isPlainObj v = false) :
    mergeObj t [(k, v)] = setKey t k v := by
  rw [mergeObj_cons_simple t k v [] hval (Or.inr hv), mergeObj_nil_right]

theorem mergeObj_nil_jLookup (s : List (String × J)) (k : String)
    (hval : isValidKey k = true) (hnd : (s.map Prod.fst).Nodup) :
    jLookup (mergeObj [] s) k = jLookup s k := by
  cases h : jLookup s k with
  | none =>
    rw [mergeObj_jLookup_notin _ _ _ ((jLookup_none_iff s k).mp h)]
    rfl
  | some v => exact mergeObj_jLookup_target_not_obj [] s k v hnd hval h rfl

theorem ownFields_jLookup (fs : List (String × J)) (k : String) (h : k ≠ "parent") :
    jLookup (ownFields (J.obj fs)) k = jLookup fs k := by
  induction fs with
  | nil => rfl
  | cons p rest ih =>
    show jLookup (List.filter _ (p :: rest)) k = _
    rw [List.filter_cons]
    by_cases hp : p.1 = "parent"
    · have hpk : p.1 ≠ k := fun hh => h (hh ▸ hp)
      have hc : (decide (p.1 ≠ "parent") : Bool) = false := by simp [hp]
      simp only [hc, Bool.false_eq_true, if_false]
      exact ih.trans (by simp [jLookup, hpk])
    · have hc : (decide (p.1 ≠ "parent") : Bool) = true := by simp [hp]
      simp only [hc, if_true]
      by_cases hpk : p.1 = k
      · simp [jLookup, hpk]
      · simp only [jLookup, hpk, if_false]
        exact ih

theorem ownFields_keys_nodup (fs : List (String × J))
    (h : (fs.map Prod.fst).Nodup) : ((ownFields (J.obj fs)).map Prod.fst).Nodup :=
  h.sublist (List.Sublist.map _ (List.filter_sublist _))

theorem finishModel_no_parents (pm : J) (own : List (String × J)) (p : String)
    (hnone : jLookup (mergeObj (mergeObj [] (objFields pm)) own) "parents" = none) :
    finishModel pm own p =
      .ok (setKey (mergeObj (mergeObj [] (objFields pm)) own) "parents" (J.arr [J.str p])) := by
  unfold finishModel
  simp [hnone, truthyO]

theorem finishModel_with_parents (pm : J) (own : List (String × J)) (p : String)
    (l : List J)
    (hsome : jLookup (mergeObj (mergeObj [] (objFields pm)) own) "parents" = some (J.arr l)) :
    finishModel pm own p =
      .ok (setKey (mergeObj (mergeObj [] (objFields pm)) own) "parents"
        (J.arr (l ++ [J.str p]))) := by
  unfold finishModel
  simp [hsome, truthyO, truthy]

theorem finishModel_ok_inv (pm : J) (own : List (String × J)) (p : String)
    (mg : List (String × J)) (h : finishModel pm own p = .ok mg) :
    ∃ l0, mg = setKey (mergeObj (mergeObj [] (objFields pm)) own) "parents"
      (J.arr (l0 ++ [J.str p])) := by
  simp only [finishModel] at h
  split at h
  · injection h with h'
    exact ⟨_, h'.symm⟩
  · cases h

/-!
## Claim theorems: the parent chain
-/

/-- C1 amended: resolving a chain `a → b → c` (where `c` neither names
a parent nor triggers the fallback rule) yields
`parents = [c, b]` — the ancestors appear *farthest-first*, because
each resolution level appends its own parent id after its recursive
call returns, so the outermost (nearest) parent lands last.  The
claim's nearest-first order `[b, c]` is refuted by the counterexample
below. -/
theorem getModel_chain3_parents (m : Minecraft) (F : Nat) (a b c : String)
    (cache c1 c2 c3 : Cache) (fa fb fc : List (String × J))
    (h1 : getModelFile m cache a = .ok (some (J.obj fa), c1))
    (ha : jLookup fa "parent" = some (J.str b)) (hbne : b ≠ "")
    (hpa : jLookup fa "parents" = none)
    (h2 : getModelFile m c1 b = .ok (some (J.obj fb), c2))
    (hb : jLookup fb "parent" = some (J.str c)) (hcne : c ≠ "")
    (hpb : jLookup fb "parents" = none)
    (h3 : getModelFile m c2 c = .ok (some (J.obj fc), c3))
    (hc : jLookup fc "parent" = none)
    (hpc : jLookup fc "parents" = none)
    (hndc : (fc.map Prod.fst).Nodup)
    (hnofb : fallbackNeeded (ownFields (J.obj fc)) = false) :
    ∃ res, getModel m (F + 3) a cache = .ok (res, c3) ∧
      getField res "parents" = some (J.arr [J.str c, J.str b]) := by
  -- level c: no parent, no fallback
  have hepc : truthyO (effectiveParent (getField (J.obj fc) "parent")
      (ownFields (J.obj fc))) = false := by
    simp [effectiveParent, getField, hc, truthyO, hnofb]
  have hC : getModel m (F + 1) c c2 =
      .ok (J.obj (mergeObj (ownFields (J.obj fc)) [("blockName", J.str c)]), c3) :=
    getModel_succ_noparent m F c c2 (J.obj fc) c3 h3 hepc
  have hpmCf_eq : mergeObj (ownFields (J.obj fc)) [("blockName", J.str c)] =
      setKey (ownFields (J.obj fc)) "blockName" (J.str c) :=
    mergeObj_single_simple _ _ _ (by decide) rfl
  have hpmCf_parents :
      jLookup (mergeObj (ownFields (J.obj fc)) [("blockName", J.str c)]) "parents" = none := by
    rw [hpmCf_eq, jLookup_setKey_ne _ _ _ _ (by decide), ownFields_jLookup _ _ (by decide), hpc]
  have hndpmCf :
      ((mergeObj (ownFields (J.obj fc)) [("blockName", J.str c)]).map Prod.fst).Nodup := by
    rw [hpmCf_eq]
    exact setKey_keys_nodup _ _ _ (ownFields_keys_nodup _ hndc)
  -- level b: parent c
  have hepb : effectiveParent (getField (J.obj fb) "parent") (ownFields (J.obj fb)) =
      some (J.str c) := by
    have : truthyO (some (J.str c)) = true := by simp [truthyO, truthy, hcne]
    simp [effectiveParent, getField, hb, this]
  have hB0 := getModel_succ_parent m (F + 1) b c1 (J.obj fb) c2 c h2 hepb hcne
  have hmergedB_parents : jLookup
      (mergeObj (mergeObj []
        (objFields (J.obj (mergeObj (ownFields (J.obj fc)) [("blockName", J.str c)]))))
        (ownFields (J.obj fb))) "parents" = none := by
    have hnotin : ∀ e ∈ ownFields (J.obj fb), e.1 ≠ "parents" :=
      (jLookup_none_iff _ _).mp (by rw [ownFields_jLookup _ _ (by decide), hpb])
    rw [mergeObj_jLookup_notin _ _ _ hnotin]
    show jLookup (mergeObj [] (mergeObj (ownFields (J.obj fc)) [("blockName", J.str c)]))
      "parents" = none
    rw [mergeObj_nil_jLookup _ _ (by decide) hndpmCf, hpmCf_parents]
  have hfinB := finishModel_no_parents
    (J.obj (mergeObj (ownFields (J.obj fc)) [("blockName", J.str c)]))
    (ownFields (J.obj fb)) c hmergedB_parents
  have hB : getModel m (F + 1 + 1) b c1 =
      .ok (J.obj (mergeObj
        (setKey (mergeObj (mergeObj []
          (objFields (J.obj (mergeObj (ownFields (J.obj fc)) [("blockName", J.str c)]))))
          (ownFields (J.obj fb))) "parents" (J.arr [J.str c]))
        [("blockName", J.str b)]), c3) := by
    rw [hB0, hC]
    show (match finishModel
        (J.obj (mergeObj (ownFields (J.obj fc)) [("blockName", J.str c)]))
        (ownFields (J.obj fb)) c with
      | Except.error e => Except.error e
      | Except.ok merged => Except.ok (J.obj (mergeObj merged [("blockName", J.str b)]), c3)) = _
    rw [hfinB]
  -- name the resolved b-model fields
  have hpmBf_eq : mergeObj
      (setKey (mergeObj (mergeObj []
        (objFields (J.obj (mergeObj (ownFields (J.obj fc)) [("blockName", J.str c)]))))
        (ownFields (J.obj fb))) "parents" (J.arr [J.str c]))
      [("blockName", J.str b)] =
      setKey (setKey (mergeObj (mergeObj []
        (objFields (J.obj (mergeObj (ownFields (J.obj fc)) [("blockName", J.str c)]))))
        (ownFields (J.obj fb))) "parents" (J.arr [J.str c])) "blockName" (J.str b) :=
    mergeObj_single_simple _ _ _ (by decide) rfl
  have hpmBf_parents : jLookup (mergeObj
      (setKey (mergeObj (mergeObj []
        (objFields (J.obj (mergeObj (ownFields (J.obj fc)) [("blockName", J.str c)]))))
        (ownFields (J.obj fb))) "parents" (J.arr [J.str c]))
      [("blockName", J.str b)]) "parents" = some (J.arr [J.str c]) := by
    rw [hpmBf_eq, jLookup_setKey_ne _ _ _ _ (by decide), jLookup_setKey_self]
  have hndpmBf : ((mergeObj
      (setKey (mergeObj (mergeObj []
        (objFields (J.obj (mergeObj (ownFields (J.obj fc)) [("blockName", J.str c)]))))
        (ownFields (J.obj fb))) "parents" (J.arr [J.str c]))
      [("blockName", J.str b)]).map Prod.fst).Nodup := by
    rw [hpmBf_eq]
    exact setKey_keys_nodup _ _ _ (setKey_keys_nodup _ _ _
      (mergeObj_keys_nodup _ _ (mergeObj_keys_nodup _ _ (by simp))))
  -- level a: parent b
  have hepa : effectiveParent (getField (J.obj fa) "parent") (ownFields (J.obj fa)) =
      some (J.str b) := by
    have : truthyO (some (J.str b)) = true := by simp [truthyO, truthy, hbne]
    simp [effectiveParent, getField, ha, this]
  have hA0 := getModel_succ_parent m (F + 1 + 1) a cache (J.obj fa) c1 b h1 hepa hbne
  have hmergedA_parents : jLookup
      (mergeObj (mergeObj [] (objFields (J.obj (mergeObj
        (setKey (mergeObj (mergeObj []
          (objFields (J.obj (mergeObj (ownFields (J.obj fc)) [("blockName", J.str c)]))))
          (ownFields (J.obj fb))) "parents" (J.arr [J.str c]))
        [("blockName", J.str b)]))))
        (ownFields (J.obj fa))) "parents" = some (J.arr [J.str c]) := by
    have hnotin : ∀ e ∈ ownFields (J.obj fa), e.1 ≠ "parents" :=
      (jLookup_none_iff _ _).mp (by rw [ownFields_jLookup _ _ (by decide), hpa])
    rw [mergeObj_jLookup_notin _ _ _ hnotin]
    show jLookup (mergeObj [] (mergeObj
      (setKey (mergeObj (mergeObj []
        (objFields (J.obj (mergeObj (ownFields (J.obj fc)) [("blockName", J.str c)]))))
        (ownFields (J.obj fb))) "parents" (J.arr [J.str c]))
      [("blockName", J.str b)])) "parents" = _
    rw [mergeObj_nil_jLookup _ _ (by decide) hndpmBf, hpmBf_parents]
  have hfinA := finishModel_with_parents
    (J.obj (mergeObj
      (setKey (mergeObj (mergeObj []
        (objFields (J.obj (mergeObj (ownFields (J.obj fc)) [("blockName", J.str c)]))))
        (ownFields (J.obj fb))) "parents" (J.arr [J.str c]))
      [("blockName", J.str b)]))
    (ownFields (J.obj fa)) b [J.str c] hmergedA_parents
  refine ⟨(J.obj (mergeObj (setKey (mergeObj (mergeObj [] (objFields (J.obj (mergeObj (setKey (mergeObj (mergeObj [] (objFields (J.obj (mergeObj (ownFields (J.obj fc)) [("blockName", J.str c)])))) (ownFields (J.obj fb))) "parents" (J.arr [J.str c])) [("blockName", J.str b)])))) (ownFields (J.obj fa))) "parents" (J.arr ([J.str c] ++ [J.str b]))) [("blockName", J.str a)])), ?_, ?_⟩
  · show getModel m (F + 3) a cache = _
    have hf3 : F + 3 = F + 1 + 1 + 1 := by omega
    rw [hf3, hA0, hB]
    show (match finishModel
        (J.obj (mergeObj
          (setKey (mergeObj (mergeObj []
            (objFields (J.obj (mergeObj (ownFields (J.obj fc)) [("blockName", J.str c)]))))
            (ownFields (J.obj fb))) "parents" (J.arr [J.str c]))
          [("blockName", J.str b)]))
        (ownFields (J.obj fa)) b with
      | Except.error e => Except.error e
      | Except.ok merged => Except.ok (J.obj (mergeObj merged [("blockName", J.str a)]), c3)) = _
    rw [hfinA]
  · have hfinal := mergeObj_single_simple
      (setKey (mergeObj (mergeObj [] (objFields (J.obj (mergeObj
        (setKey (mergeObj (mergeObj []
          (objFields (J.obj (mergeObj (ownFields (J.obj fc)) [("blockName", J.str c)]))))
          (ownFields (J.obj fb))) "parents" (J.arr [J.str c]))
        [("blockName", J.str b)]))))
        (ownFields (J.obj fa))) "parents" (J.arr ([J.str c] ++ [J.str b])))
      "blockName" (J.str a) (by decide) rfl
    show getField (J.obj _) "parents" = _
    simp only [getField]
    rw [hfinal, jLookup_setKey_ne _ _ _ _ (by decide), jLookup_setKey_self]
    rfl

/-- C1 counterexample: on the concrete chain `a → b → c` the resolved
`parents` sequence is `[c, b]` (farthest-first), which differs from the
nearest-first `[b, c]` stated by the claim. -/
theorem getModel_parents_order_counterexample :
    resultParents (getModel mc3 3 "a" []) = some (J.arr [J.str "c", J.str "b"]) ∧
    some (J.arr [J.str "c", J.str "b"]) ≠ some (J.arr [J.str "b", J.str "c"]) := by
  refine ⟨rfl, ?_⟩
  intro h
  injection h with h1
  injection h1 with h2
  injection h2 with h3 h4
  injection h3 with h5
  exact absurd h5 (by decide)

/-- C1 witness: the amended chain theorem applied to the concrete
chain fixture. -/
theorem getModel_chain3_parents_witness :
    ∃ res, getModel mc3 (0 + 3) "a" [] =
        .ok (res, [(pA, docA), (pB, docB), (pC, docC)]) ∧
      getField res "parents" = some (J.arr [J.str "c", J.str "b"]) :=
  getModel_chain3_parents mc3 0 "a" "b" "c" [] [(pA, docA)] [(pA, docA), (pB, docB)]
    [(pA, docA), (pB, docB), (pC, docC)]
    [("parent", J.str "b"), ("x", J.num 1), ("tex", J.obj [("top", J.str "ta")])]
    [("parent", J.str "c"), ("x", J.num 2), ("y", J.num 5)]
    [("display", J.obj [("gui", J.obj [("rot", J.num 30)])]), ("z", J.num 9),
      ("tex", J.obj [("top", J.str "tc"), ("side", J.str "sc")])]
    rfl rfl (by decide) rfl rfl rfl (by decide) rfl rfl rfl rfl (by decide) rfl

/-- C2: one resolution level of `getModel` merges the child document's
own fields over the resolved parent's fields with the `assign-deep`
semantics — a child value that is not a plain object replaces the
parent's value wholesale (scalars and arrays included), plain-object
values on both sides are merged key by key, and a field the child does
not define survives from the parent unchanged.  (The bookkeeping keys
`parent`, `parents` and `blockName` are managed separately by the
resolver.) -/
theorem getModel_deep_merge_fields (m : Minecraft) (F : Nat) (a p : String)
    (cache c1 c2 : Cache) (fa pmf : List (String × J)) (k : String)
    (res : J) (c2' : Cache)
    (h1 : getModelFile m cache a = .ok (some (J.obj fa), c1))
    (ha : jLookup fa "parent" = some (J.str p)) (hpne : p ≠ "")
    (hrec : getModel m F p c1 = .ok (J.obj pmf, c2))
    (hndfa : (fa.map Prod.fst).Nodup)
    (hndpm : (pmf.map Prod.fst).Nodup)
    (hk : isValidKey k = true) (hk1 : k ≠ "parent") (hk2 : k ≠ "parents")
    (hk3 : k ≠ "blockName")
    (hok : getModel m (F + 1) a cache = .ok (res, c2')) :
    (∀ v, jLookup fa k = some v → isPlainObj v = false → getField res k = some v) ∧
    (∀ sv tv, jLookup fa k = some (J.obj sv) → jLookup pmf k = some (J.obj tv) →
      getField res k = some (J.obj (mergeObj tv sv))) ∧
    (jLookup fa k = none → getField res k = jLookup pmf k) := by
  have hep : effectiveParent (getField (J.obj fa) "parent") (ownFields (J.obj fa)) =
      some (J.str p) := by
    have : truthyO (some (J.str p)) = true := by simp [truthyO, truthy, hpne]
    simp [effectiveParent, getField, ha, this]
  have hA0 := getModel_succ_parent m F a cache (J.obj fa) c1 p h1 hep hpne
  have hok2 : (match finishModel (J.obj pmf) (ownFields (J.obj fa)) p with
      | Except.error e => Except.error e
      | Except.ok mg => Except.ok (J.obj (mergeObj mg [("blockName", J.str a)]), c2)) =
      Except.ok (res, c2') := by
    rw [← hok, hA0, hrec]
  cases hfin : finishModel (J.obj pmf) (ownFields (J.obj fa)) p with
  | error e => rw [hfin] at hok2; cases hok2
  | ok mg =>
    rw [hfin] at hok2
    injection hok2 with hpair
    have hres : res = J.obj (mergeObj mg [("blockName", J.str a)]) :=
      (congrArg Prod.fst hpair).symm
    obtain ⟨l0, hmg⟩ := finishModel_ok_inv _ _ _ _ hfin
    have hbase : getField res k = jLookup (mergeObj (mergeObj [] (objFields (J.obj pmf)))
        (ownFields (J.obj fa))) k := by
      rw [hres]
      show jLookup (mergeObj mg [("blockName", J.str a)]) k = _
      rw [mergeObj_single_simple mg "blockName" (J.str a) (by decide) rfl,
        jLookup_setKey_ne _ _ _ _ hk3, hmg, jLookup_setKey_ne _ _ _ _ hk2]
    have hndown : ((ownFields (J.obj fa)).map Prod.fst).Nodup := ownFields_keys_nodup _ hndfa
    refine ⟨?_, ?_, ?_⟩
    · intro v hv hplain
      rw [hbase]
      exact mergeObj_jLookup_replace _ _ _ _ hndown hk
        (by rw [ownFields_jLookup _ _ hk1]; exact hv) hplain
    · intro sv tv hsv htv
      rw [hbase]
      refine mergeObj_jLookup_obj_obj _ _ _ tv sv hndown hk
        (by rw [ownFields_jLookup _ _ hk1]; exact hsv) ?_
      have : jLookup (mergeObj [] (objFields (J.obj pmf))) k = some (J.obj tv) := by
        show jLookup (mergeObj [] pmf) k = _
        rw [mergeObj_nil_jLookup _ _ hk hndpm, htv]
      simp [lookupObj, this]
    · intro hnone
      rw [hbase]
      have hnotin : ∀ e ∈ ownFields (J.obj fa), e.1 ≠ k :=
        (jLookup_none_iff _ _).mp (by rw [ownFields_jLookup _ _ hk1]; exact hnone)
      rw [mergeObj_jLookup_notin _ _ _ hnotin]
      show jLookup (mergeObj [] pmf) k = _
      rw [mergeObj_nil_jLookup _ _ hk hndpm]

/-- C2 witness: the merge-semantics theorem applied to the concrete
chain fixture at the ancestor-only key `z` (the conjunction also
yields the replace and object-merge cases at this level). -/
theorem getModel_deep_merge_fields_witness :
    (∀ v, jLookup [("parent", J.str "c"), ("x", J.num 2), ("y", J.num 5)] "z" = some v →
      isPlainObj v = false →
      getField (J.obj [("display", J.obj [("gui", J.obj [("rot", J.num 30)])]),
        ("z", J.num 9), ("tex", J.obj [("top", J.str "tc"), ("side", J.str "sc")]),
        ("blockName", J.str "b"), ("x", J.num 2), ("y", J.num 5),
        ("parents", J.arr [J.str "c"])]) "z" = some v) ∧
    (∀ sv tv, jLookup [("parent", J.str "c"), ("x", J.num 2), ("y", J.num 5)] "z" =
        some (J.obj sv) →
      jLookup [("display", J.obj [("gui", J.obj [("rot", J.num 30)])]), ("z", J.num 9),
        ("tex", J.obj [("top", J.str "tc"), ("side", J.str "sc")]),
        ("blockName", J.str "c")] "z" = some (J.obj tv) →
      getField (J.obj [("display", J.obj [("gui", J.obj [("rot", J.num 30)])]),
        ("z", J.num 9), ("tex", J.obj [("top", J.str "tc"), ("side", J.str "sc")]),
        ("blockName", J.str "b"), ("x", J.num 2), ("y", J.num 5),
        ("parents", J.arr [J.str "c"])]) "z" = some (J.obj (mergeObj tv sv))) ∧
    (jLookup [("parent", J.str "c"), ("x", J.num 2), ("y", J.num 5)] "z" = none →
      getField (J.obj [("display", J.obj [("gui", J.obj [("rot", J.num 30)])]),
        ("z", J.num 9), ("tex", J.obj [("top", J.str "tc"), ("side", J.str "sc")]),
        ("blockName", J.str "b"), ("x", J.num 2), ("y", J.num 5),
        ("parents", J.arr [J.str "c"])]) "z" =
      jLookup [("display", J.obj [("gui", J.obj [("rot", J.num 30)])]), ("z", J.num 9),
        ("tex", J.obj [("top", J.str "tc"), ("side", J.str "sc")]),
        ("blockName", J.str "c")] "z") :=
  getModel_deep_merge_fields mc3 1 "b" "c" [] [(pB, docB)] [(pB, docB), (pC, docC)]
    [("parent", J.str "c"), ("x", J.num 2), ("y", J.num 5)]
    [("display", J.obj [("gui", J.obj [("rot", J.num 30)])]), ("z", J.num 9),
      ("tex", J.obj [("top", J.str "tc"), ("side", J.str "sc")]), ("blockName", J.str "c")]
    "z"
    (J.obj [("display", J.obj [("gui", J.obj [("rot", J.num 30)])]), ("z", J.num 9),
      ("tex", J.obj [("top", J.str "tc"), ("side", J.str "sc")]), ("blockName", J.str "b"),
      ("x", J.num 2), ("y", J.num 5), ("parents", J.arr [J.str "c"])])
    [(pB, docB), (pC, docC)]
    rfl rfl (by decide) rfl (by decide) (by decide) (by decide) (by decide) (by decide)
    (by decide) rfl

/-- C3: a model document with no truthy `parent` and no GUI display
data resolves through the synthesized parent `minecraft:block/block`:
whenever such a resolution succeeds, the resulting `parents` sequence
is a non-empty array containing the synthesized root model id. -/
theorem getModel_fallback_root (m : Minecraft) (F : Nat) (name : String)
    (cache c1 c2 : Cache) (doc res : J)
    (h1 : getModelFile m cache name = .ok (some doc, c1))
    (hnp : truthyO (getField doc "parent") = false)
    (hfb : fallbackNeeded (ownFields doc) = true)
    (hok : getModel m (F + 1) name cache = .ok (res, c2)) :
    ∃ l, getField res "parents" = some (J.arr l) ∧ l ≠ [] ∧
      J.str "minecraft:block/block" ∈ l := by
  have hep : effectiveParent (getField doc "parent") (ownFields doc) =
      some (J.str "minecraft:block/block") := by
    simp [effectiveParent, hnp, hfb]
  have hA0 := getModel_succ_parent m F name cache doc c1 "minecraft:block/block" h1 hep
    (by decide)
  cases hrec : getModel m F "minecraft:block/block" c1 with
  | error e =>
    rw [hA0, hrec] at hok
    cases hok
  | ok pc =>
    obtain ⟨pm, c2''⟩ := pc
    have hok2 : (match finishModel pm (ownFields doc) "minecraft:block/block" with
        | Except.error e => Except.error e
        | Except.ok mg =>
          Except.ok (J.obj (mergeObj mg [("blockName", J.str name)]), c2'')) =
        Except.ok (res, c2) := by
      rw [← hok, hA0, hrec]
    cases hfin : finishModel pm (ownFields doc) "minecraft:block/block" with
    | error e => rw [hfin] at hok2; cases hok2
    | ok mg =>
      rw [hfin] at hok2
      injection hok2 with hpair
      have hres : res = J.obj (mergeObj mg [("blockName", J.str name)]) :=
        (congrArg Prod.fst hpair).symm
      obtain ⟨l0, hmg⟩ := finishModel_ok_inv _ _ _ _ hfin
      refine ⟨l0 ++ [J.str "minecraft:block/block"], ?_, by simp, by simp⟩
      rw [hres]
      show jLookup (mergeObj mg [("blockName", J.str name)]) "parents" = _
      rw [mergeObj_single_simple mg "blockName" (J.str name) (by decide) rfl,
        jLookup_setKey_ne _ _ _ _ (by decide), hmg, jLookup_setKey_self]

/-- C3 witness: the fallback theorem applied to the concrete fixture
(`foo` has neither a parent nor display data; the root model resolves
with GUI data). -/
theorem getModel_fallback_root_witness :
    ∃ l, getField (J.obj [("display", J.obj [("gui", J.obj [("rot", J.num 30)])]),
        ("blockName", J.str "foo"), ("textures", J.obj [("all", J.str "block/stone")]),
        ("parents", J.arr [J.str "minecraft:block/block"])]) "parents" =
      some (J.arr l) ∧ l ≠ [] ∧ J.str "minecraft:block/block" ∈ l :=
  getModel_fallback_root mFB 1 "foo" [] [(pFoo, docFoo)]
    [(pFoo, docFoo), (pRoot, docRoot)] docFoo
    (J.obj [("display", J.obj [("gui", J.obj [("rot", J.num 30)])]),
      ("blockName", J.str "foo"), ("textures", J.obj [("all", J.str "block/stone")]),
      ("parents", J.arr [J.str "minecraft:block/block"])])
    rfl rfl rfl rfl

/-!
## Claim theorems: batch resolution
-/

theorem settleAll_append (m : Minecraft) (fuel : Nat) (l1 l2 : List J) (c : Cache) :
    settleAll m fuel (l1 ++ l2) c =
      ((settleAll m fuel l1 c).1 ++ (settleAll m fuel l2 (settleAll m fuel l1 c).2).1,
        (settleAll m fuel l2 (settleAll m fuel l1 c).2).2) := by
  induction l1 generalizing c with
  | nil => simp [settleAll]
  | cons st rest ih =>
    simp only [List.cons_append, settleAll]
    cases getModelFromBlockState m fuel c st with
    | error e => exact ih c
    | ok pr =>
      obtain ⟨v?, c'⟩ := pr
      cases v? with
      | none => exact ih c'
      | some v =>
        by_cases hv : truthy v
        · simp [hv, ih c']
        · simp [hv, ih c']

/-- C9: batch resolution isolates per-item failures — when one block
state's model chain is broken (its resolution rejects), `getBlockList`
still returns the resolved models of all surrounding valid blocks. -/
theorem getBlockList_isolates_failures (m : Minecraft) (fuel : Nat) (cache : Cache)
    (ns : String) (l1 l2 : List J) (sb : J) (c1 cB c3 : Cache)
    (acc1 acc2 : List J) (e : JsErr)
    (hstates : getBlockStates m cache ns = .ok (l1 ++ sb :: l2, c1))
    (h1 : settleAll m fuel l1 c1 = (acc1, cB))
    (hbroken : getModelFromBlockState m fuel cB sb = .error e)
    (h2 : settleAll m fuel l2 cB = (acc2, c3)) :
    getBlockList m fuel cache ns = .ok (acc1 ++ acc2, c3) := by
  have hskip : settleAll m fuel (sb :: l2) cB = settleAll m fuel l2 cB := by
    simp only [settleAll, hbroken]
  show (match getBlockStates m cache ns with
    | Except.error e => Except.error e
    | Except.ok (states, c1) => Except.ok (settleAll m fuel states c1)) = _
  rw [hstates]
  show Except.ok (settleAll m fuel (l1 ++ sb :: l2) c1) = _
  rw [settleAll_append, h1, hskip, h2]

/-- C9 witness: the isolation theorem applied to the concrete batch
where the broken `bad` block is listed first and the valid `good`
block still resolves. -/
theorem getBlockList_isolates_failures_witness :
    getBlockList mBL 2 [] "minecraft" =
      .ok ([] ++ [J.obj [("display", J.obj [("gui", J.obj [("g", J.num 1)])]),
        ("v", J.num 7), ("blockName", J.str "good")]],
        [(pBadBS, bsBad), (pGoodBS, bsGood), (pGoodM, docGood)]) :=
  getBlockList_isolates_failures mBL 2 [] "minecraft" []
    [J.obj [("variants", J.obj [("", J.obj [("model", J.str "good")])]),
      ("identifier", J.str "minecraft:good")]]
    (J.obj [("variants", J.obj [("", J.obj [("model", J.str "bad")])]),
      ("identifier", J.str "minecraft:bad")])
    [(pBadBS, bsBad), (pGoodBS, bsGood)]
    [(pBadBS, bsBad), (pGoodBS, bsGood)]
    [(pBadBS, bsBad), (pGoodBS, bsGood), (pGoodM, docGood)]
    []
    [J.obj [("display", J.obj [("gui", J.obj [("g", J.num 1)])]), ("v", J.num 7),
      ("blockName", J.str "good")]]
    JsErr.typeError
    rfl rfl rfl rfl

/-!
## Store lemmas for the reference-level cache model
-/

theorem cellFind_mem (l : List (Nat × HCell)) (a : Nat) (c : HCell)
    (h : cellFind l a = some c) : (a, c) ∈ l := by
  induction l with
  | nil => cases h
  | cons p rest ih =>
    by_cases hp : p.1 = a
    · simp only [cellFind, hp, if_true] at h
      injection h with h'
      have : (a, c) = p := by
        ext
        · exact hp.symm
        · exact h'.symm
      rw [this]
      exact List.mem_cons_self _ _
    · simp only [cellFind, hp, if_false] at h
      exact List.mem_cons_of_mem _ (ih h)

theorem lookupCell_mem (σ : Store) (a : Nat) (c : HCell)
    (h : lookupCell σ a = some c) : (a, c) ∈ σ.mem :=
  cellFind_mem _ _ _ h

theorem lookupCell_lt_next (σ : Store) (hwf : WFStore σ) (a : Nat) (c : HCell)
    (h : lookupCell σ a = some c) : a < σ.next :=
  hwf.1 (a, c) (lookupCell_mem σ a c h)

theorem allocCell_lookup_ne (σ : Store) (c : HCell) (a : Nat) (h : a ≠ σ.next) :
    lookupCell (allocCell σ c).1 a = lookupCell σ a := by
  show cellFind ((σ.next, c) :: σ.mem) a = cellFind σ.mem a
  have hne : ¬ σ.next = a := fun hh => h hh.symm
  simp [cellFind, hne]

theorem allocCell_lookup_self (σ : Store) (c : HCell) :
    lookupCell (allocCell σ c).1 σ.next = some c := by
  show cellFind ((σ.next, c) :: σ.mem) σ.next = some c
  simp [cellFind]

theorem setCellS_lookup_ne (σ : Store) (a : Nat) (c : HCell) (a' : Nat) (h : a' ≠ a) :
    lookupCell (setCellS σ a c) a' = lookupCell σ a' := by
  show cellFind (σ.mem.map _) a' = cellFind σ.mem a'
  induction σ.mem with
  | nil => rfl
  | cons p rest ih =>
    by_cases hp : p.1 = a
    · have hne : ¬ a = a' := fun hh => h hh.symm
      have hpa : ¬ p.1 = a' := fun hh => hne (hp ▸ hh)
      simp only [List.map_cons, hp, if_true, cellFind, hne, if_false, hpa]
      exact ih
    · simp only [List.map_cons, hp, if_false, cellFind]
      by_cases hpa : p.1 = a'
      · simp [hpa]
      · simp only [hpa, if_false]
        exact ih

theorem VOK_mono (P Q : Nat → Prop) (h : ∀ a, P a → Q a) (v : HV) (hv : VOK P v) :
    VOK Q v := by
  cases v <;> first | trivial | exact h _ hv

theorem CellOK_mono (P Q : Nat → Prop) (h : ∀ a, P a → Q a) (c : HCell) (hc : CellOK P c) :
    CellOK Q c := by
  cases c with
  | harr xs => exact fun x hx => VOK_mono P Q h x (hc x hx)
  | hobj fs => exact fun f hf => VOK_mono P Q h f.2 (hc f hf)

theorem WFStore_segClosed (σ : Store) (hwf : WFStore σ) :
    SegClosed σ (fun x => x < σ.next) :=
  fun p hp _ => hwf.2 p hp

/-- Decoding only depends on the cells of the segment `P` a value is
confined to: two stores agreeing on `P`-cells decode `P`-confined
values identically.  Instantiated both for store extension and for
mutation outside the segment. -/
theorem decode_congr (σ σ' : Store) (P : Nat → Prop)
    (hlk : ∀ a, P a → lookupCell σ' a = lookupCell σ a)
    (hseg : SegClosed σ P) :
    ∀ F, (∀ v, VOK P v → decodeV σ' F v = decodeV σ F v) ∧
      (∀ xs, (∀ x ∈ xs, VOK P x) → decodeL σ' F xs = decodeL σ F xs) ∧
      (∀ fs, (∀ f ∈ fs, VOK P f.2) → decodeF σ' F fs = decodeF σ F fs) := by
  intro F
  induction F with
  | zero =>
    refine ⟨?_, ?_, ?_⟩
    · intro v _
      cases v <;> rfl
    · intro xs _
      cases xs <;> rfl
    · intro fs _
      cases fs <;> rfl
  | succ F ih =>
    obtain ⟨ihV, ihL, ihF⟩ := ih
    refine ⟨?_, ?_, ?_⟩
    · intro v hv
      cases v with
      | hstr s => rfl
      | hnum n => rfl
      | hbool b => rfl
      | hnull => rfl
      | href a =>
        have hPa : P a := hv
        simp only [decodeV, hlk a hPa]
        cases hc : lookupCell σ a with
        | none => rfl
        | some c =>
          have hcok : CellOK P c := hseg (a, c) (lookupCell_mem σ a c hc) hPa
          cases c with
          | harr xs =>
            show Option.map J.arr (decodeL σ' F xs) = Option.map J.arr (decodeL σ F xs)
            rw [ihL xs hcok]
          | hobj fs =>
            show Option.map J.obj (decodeF σ' F fs) = Option.map J.obj (decodeF σ F fs)
            rw [ihF fs hcok]
    · intro xs hxs
      cases xs with
      | nil => rfl
      | cons x rest =>
        simp only [decodeL]
        rw [ihV x (hxs x (by simp)), ihL rest (fun y hy => hxs y (by simp [hy]))]
    · intro fs hfs
      cases fs with
      | nil => rfl
      | cons f rest =>
        obtain ⟨k, x⟩ := f
        simp only [decodeF]
        rw [ihV x (hfs (k, x) (by simp)), ihF rest (fun y hy => hfs y (by simp [hy]))]

/-- A value that decodes successfully only references cells below
`next`. -/
theorem decode_VOK (σ : Store) (hwf : WFStore σ) (F : Nat) (v : HV) (j : J)
    (h : decodeV σ F v = some j) : VOK (fun x => x < σ.next) v := by
  cases v with
  | hstr s => trivial
  | hnum n => trivial
  | hbool b => trivial
  | hnull => trivial
  | href a =>
    cases F with
    | zero => cases h
    | succ F =>
      simp only [decodeV] at h
      cases hc : lookupCell σ a with
      | none => rw [hc] at h; cases h
      | some c => exact lookupCell_lt_next σ hwf a c hc

/-- Element-wise version of `decode_VOK` for lists. -/
theorem decode_VOK_L (σ : Store) (hwf : WFStore σ) :
    ∀ (xs : List HV) (F : Nat) (js : List J), decodeL σ F xs = some js →
      ∀ x ∈ xs, VOK (fun a => a < σ.next) x := by
  intro xs
  induction xs with
  | nil => intro F js _ x hx; cases hx
  | cons y rest ih =>
    intro F js h x hx
    cases F with
    | zero => cases h
    | succ F =>
      simp only [decodeL] at h
      cases hy : decodeV σ F y with
      | none => rw [hy] at h; cases h
      | some jy =>
        cases hrest : decodeL σ F rest with
        | none => rw [hy, hrest] at h; cases h
        | some jrest =>
          rcases List.mem_cons.mp hx with rfl | hx'
          · exact decode_VOK σ hwf F x jy hy
          · exact ih F jrest hrest x hx' 

/-- Element-wise version of `decode_VOK` for field lists. -/
theorem decode_VOK_F (σ : Store) (hwf : WFStore σ) :
    ∀ (fs : List (String × HV)) (F : Nat) (js : List (String × J)),
      decodeF σ F fs = some js → ∀ f ∈ fs, VOK (fun a => a < σ.next) f.2 := by
  intro fs
  induction fs with
  | nil => intro F js _ f hf; cases hf
  | cons p rest ih =>
    obtain ⟨k, y⟩ := p
    intro F js h f hf
    cases F with
    | zero => cases h
    | succ F =>
      simp only [decodeF] at h
      cases hy : decodeV σ F y with
      | none => rw [hy] at h; cases h
      | some jy =>
        cases hrest : decodeF σ F rest with
        | none => rw [hy, hrest] at h; cases h
        | some jrest =>
          rcases List.mem_cons.mp hf with rfl | hf'
          · exact decode_VOK σ hwf F y jy hy
          · exact ih F jrest hrest f hf' 

/-- Copying allocates only fresh cells: the store grows, old cells are
untouched, the result is confined to the freshly allocated region
`[σ.next, σ'.next)`, and that region is internally closed. -/
theorem copy_spec : ∀ F : Nat,
    (∀ σ v σ' v', WFStore σ → copyV F σ v = some (σ', v') →
      σ.next ≤ σ'.next ∧
      (∀ a, a < σ.next → lookupCell σ' a = lookupCell σ a) ∧
      (∀ p ∈ σ'.mem, p.1 < σ.next → p ∈ σ.mem) ∧
      WFStore σ' ∧
      VOK (fun x => σ.next ≤ x ∧ x < σ'.next) v' ∧
      (∀ p ∈ σ'.mem, σ.next ≤ p.1 →
        CellOK (fun x => σ.next ≤ x ∧ x < σ'.next) p.2)) ∧
    (∀ σ xs σ' xs', WFStore σ → copyL F σ xs = some (σ', xs') →
      σ.next ≤ σ'.next ∧
      (∀ a, a < σ.next → lookupCell σ' a = lookupCell σ a) ∧
      (∀ p ∈ σ'.mem, p.1 < σ.next → p ∈ σ.mem) ∧
      WFStore σ' ∧
      (∀ x' ∈ xs', VOK (fun x => σ.next ≤ x ∧ x < σ'.next) x') ∧
      (∀ p ∈ σ'.mem, σ.next ≤ p.1 →
        CellOK (fun x => σ.next ≤ x ∧ x < σ'.next) p.2)) ∧
    (∀ σ fs σ' fs', WFStore σ → copyF F σ fs = some (σ', fs') →
      σ.next ≤ σ'.next ∧
      (∀ a, a < σ.next → lookupCell σ' a = lookupCell σ a) ∧
      (∀ p ∈ σ'.mem, p.1 < σ.next → p ∈ σ.mem) ∧
      WFStore σ' ∧
      (∀ f ∈ fs', VOK (fun x => σ.next ≤ x ∧ x < σ'.next) f.2) ∧
      (∀ p ∈ σ'.mem, σ.next ≤ p.1 →
        CellOK (fun x => σ.next ≤ x ∧ x < σ'.next) p.2)) := by
  intro F
  induction F with
  | zero =>
    refine ⟨?_, ?_, ?_⟩
    · intro σ v σ' v' hwf h
      cases v with
      | hstr s =>
        injection h with h'
        injection h' with h1 h2
        subst h1; subst h2
        refine ⟨le_rfl, fun a _ => rfl, fun p hp _ => hp, hwf, trivial, ?_⟩
        intro p hp hge
        exact absurd (hwf.1 p hp) (by omega)
      | hnum n =>
        injection h with h'
        injection h' with h1 h2
        subst h1; subst h2
        refine ⟨le_rfl, fun a _ => rfl, fun p hp _ => hp, hwf, trivial, ?_⟩
        intro p hp hge
        exact absurd (hwf.1 p hp) (by omega)
      | hbool b =>
        injection h with h'
        injection h' with h1 h2
        subst h1; subst h2
        refine ⟨le_rfl, fun a _ => rfl, fun p hp _ => hp, hwf, trivial, ?_⟩
        intro p hp hge
        exact absurd (hwf.1 p hp) (by omega)
      | hnull =>
        injection h with h'
        injection h' with h1 h2
        subst h1; subst h2
        refine ⟨le_rfl, fun a _ => rfl, fun p hp _ => hp, hwf, trivial, ?_⟩
        intro p hp hge
        exact absurd (hwf.1 p hp) (by omega)
      | href a => simp [copyV] at h
    · intro σ xs σ' xs' hwf h
      cases xs with
      | nil =>
        injection h with h'
        injection h' with h1 h2
        subst h1; subst h2
        refine ⟨le_rfl, fun a _ => rfl, fun p hp _ => hp, hwf, by simp, ?_⟩
        intro p hp hge
        exact absurd (hwf.1 p hp) (by omega)
      | cons x rest => simp [copyL] at h
    · intro σ fs σ' fs' hwf h
      cases fs with
      | nil =>
        injection h with h'
        injection h' with h1 h2
        subst h1; subst h2
        refine ⟨le_rfl, fun a _ => rfl, fun p hp _ => hp, hwf, by simp, ?_⟩
        intro p hp hge
        exact absurd (hwf.1 p hp) (by omega)
      | cons f rest => simp [copyF] at h
  | succ F ih =>
    obtain ⟨ihV, ihL, ihF⟩ := ih
    refine ⟨?_, ?_, ?_⟩
    · intro σ v σ' v' hwf h
      cases v with
      | hstr s =>
        injection h with h'
        injection h' with h1 h2
        subst h1; subst h2
        refine ⟨le_rfl, fun a _ => rfl, fun p hp _ => hp, hwf, trivial, ?_⟩
        intro p hp hge
        exact absurd (hwf.1 p hp) (by omega)
      | hnum n =>
        injection h with h'
        injection h' with h1 h2
        subst h1; subst h2
        refine ⟨le_rfl, fun a _ => rfl, fun p hp _ => hp, hwf, trivial, ?_⟩
        intro p hp hge
        exact absurd (hwf.1 p hp) (by omega)
      | hbool b =>
        injection h with h'
        injection h' with h1 h2
        subst h1; subst h2
        refine ⟨le_rfl, fun a _ => rfl, fun p hp _ => hp, hwf, trivial, ?_⟩
        intro p hp hge
        exact absurd (hwf.1 p hp) (by omega)
      | hnull =>
        injection h with h'
        injection h' with h1 h2
        subst h1; subst h2
        refine ⟨le_rfl, fun a _ => rfl, fun p hp _ => hp, hwf, trivial, ?_⟩
        intro p hp hge
        exact absurd (hwf.1 p hp) (by omega)
      | href a =>
        simp only [copyV] at h
        split at h
        next xs heq =>
          split at h
          next σ1 xs1 heq2 =>
              injection h with h'
              injection h' with h1 h2
              subst h1; subst h2
              obtain ⟨hle, hlk, hmem, hwf1, hels, hnew⟩ := ihL σ xs σ1 xs1 hwf heq2
              refine ⟨by show σ.next ≤ σ1.next + 1; omega, ?_, ?_, ?_, ?_, ?_⟩
              · intro a1 ha1
                rw [allocCell_lookup_ne σ1 (HCell.harr xs1) a1 (by omega)]
                exact hlk a1 ha1
              · intro p hp hlt
                rcases List.mem_cons.mp hp with rfl | hp'
                · exact absurd (show σ1.next < σ.next from hlt) (by omega)
                · exact hmem p hp' hlt
              · refine ⟨?_, ?_⟩
                · intro p hp
                  rcases List.mem_cons.mp hp with rfl | hp'
                  · show σ1.next < σ1.next + 1; omega
                  · have := hwf1.1 p hp'
                    show p.1 < σ1.next + 1
                    omega
                · intro p hp
                  rcases List.mem_cons.mp hp with rfl | hp'
                  · intro x hx
                    exact VOK_mono _ _ (fun b hb => by show b < σ1.next + 1; omega) x (hels x hx)
                  · exact CellOK_mono _ _ (fun b hb => by show b < σ1.next + 1; omega) _ (hwf1.2 p hp')
              · show σ.next ≤ σ1.next ∧ σ1.next < σ1.next + 1
                omega
              · intro p hp hge
                rcases List.mem_cons.mp hp with rfl | hp'
                · intro x hx
                  exact VOK_mono _ _ (fun b hb => ⟨hb.1, by show b < σ1.next + 1; omega⟩) x (hels x hx)
                · exact CellOK_mono _ _ (fun b hb => ⟨hb.1, by show b < σ1.next + 1; omega⟩) _ (hnew p hp' hge)
          next => exact Option.noConfusion h
        next fs heq =>
          split at h
          next σ1 fs1 heq2 =>
              injection h with h'
              injection h' with h1 h2
              subst h1; subst h2
              obtain ⟨hle, hlk, hmem, hwf1, hels, hnew⟩ := ihF σ fs σ1 fs1 hwf heq2
              refine ⟨by show σ.next ≤ σ1.next + 1; omega, ?_, ?_, ?_, ?_, ?_⟩
              · intro a1 ha1
                rw [allocCell_lookup_ne σ1 (HCell.hobj fs1) a1 (by omega)]
                exact hlk a1 ha1
              · intro p hp hlt
                rcases List.mem_cons.mp hp with rfl | hp'
                · exact absurd (show σ1.next < σ.next from hlt) (by omega)
                · exact hmem p hp' hlt
              · refine ⟨?_, ?_⟩
                · intro p hp
                  rcases List.mem_cons.mp hp with rfl | hp'
                  · show σ1.next < σ1.next + 1; omega
                  · have := hwf1.1 p hp'
                    show p.1 < σ1.next + 1
                    omega
                · intro p hp
                  rcases List.mem_cons.mp hp with rfl | hp'
                  · intro f hf
                    exact VOK_mono _ _ (fun b hb => by show b < σ1.next + 1; omega) f.2 (hels f hf)
                  · exact CellOK_mono _ _ (fun b hb => by show b < σ1.next + 1; omega) _ (hwf1.2 p hp')
              · show σ.next ≤ σ1.next ∧ σ1.next < σ1.next + 1
                omega
              · intro p hp hge
                rcases List.mem_cons.mp hp with rfl | hp'
                · intro f hf
                  exact VOK_mono _ _ (fun b hb => ⟨hb.1, by show b < σ1.next + 1; omega⟩) f.2 (hels f hf)
                · exact CellOK_mono _ _ (fun b hb => ⟨hb.1, by show b < σ1.next + 1; omega⟩) _ (hnew p hp' hge)
          next => exact Option.noConfusion h
        next => exact Option.noConfusion h
    · intro σ xs σ' xs' hwf h
      cases xs with
      | nil =>
        injection h with h'
        injection h' with h1 h2
        subst h1; subst h2
        refine ⟨le_rfl, fun a _ => rfl, fun p hp _ => hp, hwf, by simp, ?_⟩
        intro p hp hge
        exact absurd (hwf.1 p hp) (by omega)
      | cons x rest =>
        simp only [copyL] at h
        split at h
        next σ1 x1 heq1 =>
          split at h
          next σ2 rest1 heq2 =>
            injection h with h'
            injection h' with h1 h2
            subst h1; subst h2
            obtain ⟨hle1, hlk1, hmem1, hwf1, hel1, hnew1⟩ := ihV σ x σ1 x1 hwf heq1
            obtain ⟨hle2, hlk2, hmem2, hwf2, hel2, hnew2⟩ := ihL σ1 rest σ2 rest1 hwf1 heq2
            refine ⟨by omega, ?_, ?_, hwf2, ?_, ?_⟩
            · intro a ha
              rw [hlk2 a (by omega)]
              exact hlk1 a ha
            · intro p hp hlt
              exact hmem1 p (hmem2 p hp (by omega)) hlt
            · intro y hy
              rcases List.mem_cons.mp hy with rfl | hy1
              · exact VOK_mono _ _ (fun b hb => ⟨hb.1, by omega⟩) y hel1
              · exact VOK_mono _ _ (fun b hb => ⟨by omega, hb.2⟩) y (hel2 y hy1)
            · intro p hp hge
              by_cases hlt1 : p.1 < σ1.next
              · exact CellOK_mono _ _ (fun b hb => ⟨hb.1, by omega⟩) _
                  (hnew1 p (hmem2 p hp hlt1) hge)
              · exact CellOK_mono _ _ (fun b hb => ⟨by omega, hb.2⟩) _
                  (hnew2 p hp (by omega))
          next => exact Option.noConfusion h
        next => exact Option.noConfusion h
    · intro σ fs σ' fs' hwf h
      cases fs with
      | nil =>
        injection h with h'
        injection h' with h1 h2
        subst h1; subst h2
        refine ⟨le_rfl, fun a _ => rfl, fun p hp _ => hp, hwf, by simp, ?_⟩
        intro p hp hge
        exact absurd (hwf.1 p hp) (by omega)
      | cons f rest =>
        obtain ⟨k, x⟩ := f
        simp only [copyF] at h
        split at h
        next σ1 x1 heq1 =>
          split at h
          next σ2 rest1 heq2 =>
            injection h with h'
            injection h' with h1 h2
            subst h1; subst h2
            obtain ⟨hle1, hlk1, hmem1, hwf1, hel1, hnew1⟩ := ihV σ x σ1 x1 hwf heq1
            obtain ⟨hle2, hlk2, hmem2, hwf2, hel2, hnew2⟩ := ihF σ1 rest σ2 rest1 hwf1 heq2
            refine ⟨by omega, ?_, ?_, hwf2, ?_, ?_⟩
            · intro a ha
              rw [hlk2 a (by omega)]
              exact hlk1 a ha
            · intro p hp hlt
              exact hmem1 p (hmem2 p hp (by omega)) hlt
            · intro g hg
              rcases List.mem_cons.mp hg with rfl | hg1
              · exact VOK_mono _ _ (fun b hb => ⟨hb.1, by omega⟩) _ hel1
              · exact VOK_mono _ _ (fun b hb => ⟨by omega, hb.2⟩) _ (hel2 g hg1)
            · intro p hp hge
              by_cases hlt1 : p.1 < σ1.next
              · exact CellOK_mono _ _ (fun b hb => ⟨hb.1, by omega⟩) _
                  (hnew1 p (hmem2 p hp hlt1) hge)
              · exact CellOK_mono _ _ (fun b hb => ⟨by omega, hb.2⟩) _
                  (hnew2 p hp (by omega))
          next => exact Option.noConfusion h
        next => exact Option.noConfusion h

/-- A value that decodes successfully can be deep-copied with the same
fuel, and the copy decodes to the same document in the extended store. -/
theorem copy_decode : ∀ F : Nat,
    (∀ σ v j, WFStore σ → decodeV σ F v = some j →
      ∃ σ1 v1, copyV F σ v = some (σ1, v1) ∧ decodeV σ1 F v1 = some j) ∧
    (∀ σ xs js, WFStore σ → decodeL σ F xs = some js →
      ∃ σ1 xs1, copyL F σ xs = some (σ1, xs1) ∧ decodeL σ1 F xs1 = some js) ∧
    (∀ σ fs js, WFStore σ → decodeF σ F fs = some js →
      ∃ σ1 fs1, copyF F σ fs = some (σ1, fs1) ∧ decodeF σ1 F fs1 = some js) := by
  intro F
  induction F with
  | zero =>
    refine ⟨?_, ?_, ?_⟩
    · intro σ v j hwf h
      cases v with
      | hstr s => exact ⟨σ, HV.hstr s, rfl, h⟩
      | hnum n => exact ⟨σ, HV.hnum n, rfl, h⟩
      | hbool b => exact ⟨σ, HV.hbool b, rfl, h⟩
      | hnull => exact ⟨σ, HV.hnull, rfl, h⟩
      | href a => cases h
    · intro σ xs js hwf h
      cases xs with
      | nil => exact ⟨σ, [], rfl, h⟩
      | cons x rest => cases h
    · intro σ fs js hwf h
      cases fs with
      | nil => exact ⟨σ, [], rfl, h⟩
      | cons f rest => cases h
  | succ F ih =>
    obtain ⟨ihV, ihL, ihF⟩ := ih
    refine ⟨?_, ?_, ?_⟩
    · intro σ v j hwf h
      cases v with
      | hstr s => exact ⟨σ, HV.hstr s, rfl, h⟩
      | hnum n => exact ⟨σ, HV.hnum n, rfl, h⟩
      | hbool b => exact ⟨σ, HV.hbool b, rfl, h⟩
      | hnull => exact ⟨σ, HV.hnull, rfl, h⟩
      | href a =>
        simp only [decodeV] at h
        split at h
        next xs heq =>
          cases hjs : decodeL σ F xs with
          | none => rw [hjs] at h; exact Option.noConfusion h
          | some js =>
            rw [hjs] at h
            injection h with h'
            subst h'
            obtain ⟨σ1, xsC, hcp, hd⟩ := ihL σ xs js hwf hjs
            obtain ⟨hle, hlk, hmem, hwf1, hels, hnew⟩ := (copy_spec F).2.1 σ xs σ1 xsC hwf hcp
            refine ⟨(allocCell σ1 (HCell.harr xsC)).1,
              HV.href (allocCell σ1 (HCell.harr xsC)).2, ?_, ?_⟩
            · simp only [copyV, heq, hcp]
            · show decodeV (allocCell σ1 (HCell.harr xsC)).1 (F + 1)
                (HV.href σ1.next) = some (J.arr js)
              simp only [decodeV]
              rw [allocCell_lookup_self σ1 (HCell.harr xsC)]
              show (decodeL (allocCell σ1 (HCell.harr xsC)).1 F xsC).map J.arr
                = some (J.arr js)
              have hcongr := (decode_congr σ1 (allocCell σ1 (HCell.harr xsC)).1
                  (fun x => σ.next ≤ x ∧ x < σ1.next)
                  (fun b hb => allocCell_lookup_ne σ1 (HCell.harr xsC) b (by omega))
                  (fun p hp hP => hnew p hp hP.1) F).2.1 xsC hels
              rw [hcongr, hd]
              rfl
        next fs heq =>
          cases hjs : decodeF σ F fs with
          | none => rw [hjs] at h; exact Option.noConfusion h
          | some js =>
            rw [hjs] at h
            injection h with h'
            subst h'
            obtain ⟨σ1, fsC, hcp, hd⟩ := ihF σ fs js hwf hjs
            obtain ⟨hle, hlk, hmem, hwf1, hels, hnew⟩ := (copy_spec F).2.2 σ fs σ1 fsC hwf hcp
            refine ⟨(allocCell σ1 (HCell.hobj fsC)).1,
              HV.href (allocCell σ1 (HCell.hobj fsC)).2, ?_, ?_⟩
            · simp only [copyV, heq, hcp]
            · show decodeV (allocCell σ1 (HCell.hobj fsC)).1 (F + 1)
                (HV.href σ1.next) = some (J.obj js)
              simp only [decodeV]
              rw [allocCell_lookup_self σ1 (HCell.hobj fsC)]
              show (decodeF (allocCell σ1 (HCell.hobj fsC)).1 F fsC).map J.obj
                = some (J.obj js)
              have hcongr := (decode_congr σ1 (allocCell σ1 (HCell.hobj fsC)).1
                  (fun x => σ.next ≤ x ∧ x < σ1.next)
                  (fun b hb => allocCell_lookup_ne σ1 (HCell.hobj fsC) b (by omega))
                  (fun p hp hP => hnew p hp hP.1) F).2.2 fsC hels
              rw [hcongr, hd]
              rfl
        next => exact Option.noConfusion h
    · intro σ xs js hwf h
      cases xs with
      | nil => exact ⟨σ, [], rfl, h⟩
      | cons x rest =>
        simp only [decodeL] at h
        split at h
        next jx jsr heq1 heq2 =>
          injection h with h'
          subst h'
          obtain ⟨σ1, x1, hcp1, hd1⟩ := ihV σ x jx hwf heq1
          obtain ⟨hle1, hlk1, hmem1, hwf1, hvok1, hnew1⟩ := (copy_spec F).1 σ x σ1 x1 hwf hcp1
          have hrest1 : decodeL σ1 F rest = some jsr := by
            rw [(decode_congr σ σ1 (fun b => b < σ.next) hlk1
              (WFStore_segClosed σ hwf) F).2.1 rest
              (decode_VOK_L σ hwf rest F jsr heq2)]
            exact heq2
          obtain ⟨σ2, rest1, hcp2, hd2⟩ := ihL σ1 rest jsr hwf1 hrest1
          obtain ⟨hle2, hlk2, hmem2, hwf2, hels2, hnew2⟩ :=
            (copy_spec F).2.1 σ1 rest σ2 rest1 hwf1 hcp2
          have hx2 : decodeV σ2 F x1 = some jx := by
            rw [(decode_congr σ1 σ2 (fun b => b < σ1.next) hlk2
              (WFStore_segClosed σ1 hwf1) F).1 x1 (decode_VOK σ1 hwf1 F x1 jx hd1)]
            exact hd1
          refine ⟨σ2, x1 :: rest1, ?_, ?_⟩
          · simp only [copyL, hcp1, hcp2]
          · simp only [decodeL, hx2, hd2]
        next => exact Option.noConfusion h
    · intro σ fs js hwf h
      cases fs with
      | nil => exact ⟨σ, [], rfl, h⟩
      | cons f rest =>
        obtain ⟨k, x⟩ := f
        simp only [decodeF] at h
        split at h
        next jx jsr heq1 heq2 =>
          injection h with h'
          subst h'
          obtain ⟨σ1, x1, hcp1, hd1⟩ := ihV σ x jx hwf heq1
          obtain ⟨hle1, hlk1, hmem1, hwf1, hvok1, hnew1⟩ := (copy_spec F).1 σ x σ1 x1 hwf hcp1
          have hrest1 : decodeF σ1 F rest = some jsr := by
            rw [(decode_congr σ σ1 (fun b => b < σ.next) hlk1
              (WFStore_segClosed σ hwf) F).2.2 rest
              (decode_VOK_F σ hwf rest F jsr heq2)]
            exact heq2
          obtain ⟨σ2, rest1, hcp2, hd2⟩ := ihF σ1 rest jsr hwf1 hrest1
          obtain ⟨hle2, hlk2, hmem2, hwf2, hels2, hnew2⟩ :=
            (copy_spec F).2.2 σ1 rest σ2 rest1 hwf1 hcp2
          have hx2 : decodeV σ2 F x1 = some jx := by
            rw [(decode_congr σ1 σ2 (fun b => b < σ1.next) hlk2
              (WFStore_segClosed σ1 hwf1) F).1 x1 (decode_VOK σ1 hwf1 F x1 jx hd1)]
            exact hd1
          refine ⟨σ2, (k, x1) :: rest1, ?_, ?_⟩
          · simp only [copyF, hcp1, hcp2]
          · simp only [decodeF, hx2, hd2]
        next => exact Option.noConfusion h

/-- Unfolding `getParsedJsonS` on a cache hit whose cached value is
truthy: the call deep-copies the cached value and returns the copy,
leaving the cache untouched. -/
theorem getParsedJsonS_cached_ok (m : Minecraft) (F : Nat) (σ : Store)
    (cache : SCache) (path : String) (v : HV) (σ1 : Store) (r : HV)
    (hcache : jLookup cache path = some v) (htr : truthyHV v = true)
    (hcp : copyV F σ v = some (σ1, r)) :
    getParsedJsonS m F σ cache path = Except.ok (some r, σ1, cache) := by
  simp [getParsedJsonS, hcache, truthyOHV, htr, hcp]

/-- **C8** — For a path whose document is cached (a truthy cached value
`v` decoding to the document `j`), each call to `getParsedJson` returns
a deep, independent copy of the cached value: two successive calls
succeed and return `r1` and `r2`, both decode to the very document `j`
(structural equality), the cached value still decodes to `j`, and
mutating any heap cell of the first copy (every cell of `r1` lies in
the fresh region `[σ.next, σ1.next)`) changes neither what the second
copy nor what the cached value decodes to. -/
theorem getParsedJson_clone_independent
    (m : Minecraft) (F : Nat) (σ : Store) (cache : SCache) (path : String)
    (v : HV) (j : J)
    (hwf : WFStore σ) (hcache : jLookup cache path = some v)
    (htr : truthyHV v = true) (hdec : decodeV σ F v = some j) :
    ∃ σ1 r1 σ2 r2,
      getParsedJsonS m F σ cache path = Except.ok (some r1, σ1, cache) ∧
      getParsedJsonS m F σ1 cache path = Except.ok (some r2, σ2, cache) ∧
      decodeV σ2 F r1 = some j ∧
      decodeV σ2 F r2 = some j ∧
      decodeV σ2 F v = some j ∧
      VOK (fun b => σ.next ≤ b ∧ b < σ1.next) r1 ∧
      (∀ a c', σ.next ≤ a → a < σ1.next →
        decodeV (setCellS σ2 a c') F r2 = some j ∧
        decodeV (setCellS σ2 a c') F v = some j) := by
  obtain ⟨σ1, r1, hcp1, hd1⟩ := (copy_decode F).1 σ v j hwf hdec
  obtain ⟨hle1, hlk1, hmem1, hwf1, hvok1, hnew1⟩ := (copy_spec F).1 σ v σ1 r1 hwf hcp1
  have hvv : VOK (fun b => b < σ.next) v := decode_VOK σ hwf F v j hdec
  have hdec1 : decodeV σ1 F v = some j := by
    rw [(decode_congr σ σ1 (fun b => b < σ.next) hlk1 (WFStore_segClosed σ hwf) F).1 v hvv]
    exact hdec
  obtain ⟨σ2, r2, hcp2, hd2⟩ := (copy_decode F).1 σ1 v j hwf1 hdec1
  obtain ⟨hle2, hlk2, hmem2, hwf2, hvok2, hnew2⟩ := (copy_spec F).1 σ1 v σ2 r2 hwf1 hcp2
  have hv2 : decodeV σ2 F v = some j := by
    rw [(decode_congr σ1 σ2 (fun b => b < σ1.next) hlk2
      (WFStore_segClosed σ1 hwf1) F).1 v (decode_VOK σ1 hwf1 F v j hdec1)]
    exact hdec1
  refine ⟨σ1, r1, σ2, r2,
    getParsedJsonS_cached_ok m F σ cache path v σ1 r1 hcache htr hcp1,
    getParsedJsonS_cached_ok m F σ1 cache path v σ2 r2 hcache htr hcp2,
    ?_, hd2, hv2, hvok1, ?_⟩
  · rw [(decode_congr σ1 σ2 (fun b => b < σ1.next) hlk2
      (WFStore_segClosed σ1 hwf1) F).1 r1 (decode_VOK σ1 hwf1 F r1 j hd1)]
    exact hd1
  · intro a c' hge hlt
    constructor
    · rw [(decode_congr σ2 (setCellS σ2 a c') (fun b => σ1.next ≤ b ∧ b < σ2.next)
        (fun b hb => setCellS_lookup_ne σ2 a c' b (by omega))
        (fun p hp hP => hnew2 p hp hP.1) F).1 r2 hvok2]
      exact hd2
    · have hseg : SegClosed σ2 (fun b => b < σ.next) := by
        intro p hp hP
        exact hwf.2 p (hmem1 p (hmem2 p hp (by omega)) hP)
      rw [(decode_congr σ2 (setCellS σ2 a c') (fun b => b < σ.next)
        (fun b hb => setCellS_lookup_ne σ2 a c' b (by omega)) hseg F).1 v hvv]
      exact hv2

/-- Witness for C8 at a concrete instance: an empty-jar client, fuel 2,
a one-cell store holding the parsed object `\x7b"x": "1"\x7d`, and a cache
mapping "p" to it. -/
theorem getParsedJson_clone_independent_witness :
    WFStore cloneStore ∧
    jLookup cloneCache "p" = some (HV.href 0) ∧
    truthyHV (HV.href 0) = true ∧
    decodeV cloneStore 2 (HV.href 0) = some (J.obj [("x", J.str "1")]) ∧
    (∃ σ1 r1 σ2 r2,
      getParsedJsonS mEmpty 2 cloneStore cloneCache "p" = Except.ok (some r1, σ1, cloneCache) ∧
      getParsedJsonS mEmpty 2 σ1 cloneCache "p" = Except.ok (some r2, σ2, cloneCache) ∧
      decodeV σ2 2 r1 = some (J.obj [("x", J.str "1")]) ∧
      decodeV σ2 2 r2 = some (J.obj [("x", J.str "1")]) ∧
      decodeV σ2 2 (HV.href 0) = some (J.obj [("x", J.str "1")]) ∧
      VOK (fun b => cloneStore.next ≤ b ∧ b < σ1.next) r1 ∧
      (∀ a c', cloneStore.next ≤ a → a < σ1.next →
        decodeV (setCellS σ2 a c') 2 r2 = some (J.obj [("x", J.str "1")]) ∧
        decodeV (setCellS σ2 a c') 2 (HV.href 0) = some (J.obj [("x", J.str "1")]))) := by
  have hwf : WFStore cloneStore := by
    constructor
    · intro p hp
      rcases List.mem_cons.mp hp with rfl | hp'
      · show (0 : Nat) < 1; decide
      · cases hp'
    · intro p hp
      rcases List.mem_cons.mp hp with rfl | hp'
      · intro f hf
        rcases List.mem_cons.mp hf with rfl | hf'
        · trivial
        · cases hf'
      · cases hp'
  exact ⟨hwf, rfl, rfl, rfl,
    getParsedJson_clone_independent mEmpty 2 cloneStore cloneCache "p" (HV.href 0)
      (J.obj [("x", J.str "1")]) hwf rfl rfl rfl⟩

end MR
